import Mathlib

/-!
# PR-QUEST: diff parsing and review-plan generation, verified

Shallow embedding of the PR-QUEST core pipeline:

* the unified diff parser (`parseUnifiedDiff` and its helpers),
* the heuristic grouping engine (`buildHeuristicReviewPlan`),
* the model-assisted grouping adapter's control flow (`buildLlmReviewPlan`).

JavaScript strings are modelled as Lean `String`s, with the operations the
source uses (`startsWith`, `slice`, `trim`, `split`, `includes`, regular
expression matches against the three fixed patterns) reimplemented by
structural recursion over the underlying character list so that every
definition is executable and kernel-reducible.  JavaScript string indices are
UTF-16 code units; we use code points, which agrees on all inputs whose
characters lie in the Basic Multilingual Plane.  `string | null` values are
modelled as `Option String`, and JavaScript truthiness checks on them test
both for `none` and for the empty string.
-/

set_option maxRecDepth 8000

namespace PRQuest

/-! ## Character-list string helpers -/

/-- `listHasPre p l` : `p` is a prefix of the character list `l`. -/
def listHasPre : List Char → List Char → Bool
  | [], _ => true
  | _ :: _, [] => false
  | a :: as, b :: bs => a = b && listHasPre as bs

/-- Models JavaScript `s.startsWith(p)`. -/
def strStartsWith (s p : String) : Bool := listHasPre p.data s.data

/-- Models JavaScript `s.endsWith(p)`. -/
def strEndsWith (s p : String) : Bool := listHasPre p.data.reverse s.data.reverse

/-- `listHasSub n l` : `n` occurs as a contiguous sublist of `l`. -/
def listHasSub (needle : List Char) : List Char → Bool
  | [] => needle.isEmpty
  | c :: cs => listHasPre needle (c :: cs) || listHasSub needle cs

/-- Models JavaScript `s.includes(sub)`. -/
def strIncludes (s sub : String) : Bool := listHasSub sub.data s.data

/-- Models JavaScript `s.slice(n)` (drop the first `n` code units). -/
def strDrop (s : String) (n : Nat) : String := ⟨s.data.drop n⟩

/-- Drop the last `n` code units (used to model `s.slice(a, -n)`). -/
def strDropRight (s : String) (n : Nat) : String := ⟨(s.data.reverse.drop n).reverse⟩

/-- String length in code units. -/
def strLen (s : String) : Nat := s.data.length

/-- The whitespace class of JavaScript (`\s`, `trim`), restricted to the
characters that can actually reach the parser (ASCII whitespace and NBSP). -/
def isJsWhitespace (c : Char) : Bool :=
  c = ' ' || c = '\t' || c = '\n' || c = '\r' || c = '\x0b' || c = '\x0c' || c = ' '

/-- Models JavaScript `s.trim()`. -/
def strTrim (s : String) : String :=
  ⟨((s.data.dropWhile isJsWhitespace).reverse.dropWhile isJsWhitespace).reverse⟩

/-- Models JavaScript `s.toLowerCase()` (per-character lowering). -/
def strToLower (s : String) : String := ⟨s.data.map Char.toLower⟩

/-- Splitting a character list at a separator; models JavaScript
`s.split(sep)` for a one-character separator (`"".split` gives `[""]`,
a trailing separator yields a trailing empty field). -/
def splitOnCh (sep : Char) : List Char → List (List Char)
  | [] => [[]]
  | c :: cs =>
    if c = sep then [] :: splitOnCh sep cs
    else
      match splitOnCh sep cs with
      | [] => [[c]]
      | h :: t => (c :: h) :: t

/-- `String` version of `splitOnCh`. -/
def strSplitOnCh (sep : Char) (s : String) : List String :=
  (splitOnCh sep s.data).map (fun l => ⟨l⟩)

/-- Models JavaScript `s.replaceAll("\r\n", "\n")` (left-to-right,
non-overlapping). -/
def replaceCrlf : List Char → List Char
  | '\r' :: '\n' :: rest => '\n' :: replaceCrlf rest
  | c :: rest => c :: replaceCrlf rest
  | [] => []

/-- Three-way string comparison by code point, the model used for
`a.localeCompare(b)` (the comparator's sign is all the source consumes;
on the lowercase-ASCII grouping keys it agrees with the default locale). -/
def cmpCharList : List Char → List Char → Int
  | [], [] => 0
  | [], _ :: _ => -1
  | _ :: _, [] => 1
  | a :: as, b :: bs => if a < b then -1 else if b < a then 1 else cmpCharList as bs

/-- Decimal digit test (`\d`). -/
def isDigitCh (c : Char) : Bool := '0' ≤ c && c ≤ '9'

/-- Digits to a natural number (models `Number.parseInt(·, 10)` on a
digit-only match; the diffs in scope keep line numbers well inside the
exactly-representable range). -/
def digitsToNat (l : List Char) : Nat :=
  l.foldl (fun acc c => acc * 10 + (c.toNat - '0'.toNat)) 0

/-- JavaScript `a ?? b` on nullable strings (the empty string is *not* null). -/
def orOpt (a b : Option String) : Option String :=
  match a with
  | some x => some x
  | none => b

/-- JavaScript falsiness of a `string | null` value: null or empty. -/
def optFalsy (o : Option String) : Bool :=
  match o with
  | none => true
  | some s => s.data.isEmpty

/-! ## Diff index data model (src/lib/diff-index.ts) -/

inductive DiffFileStatus where
  | added | deleted | modified | renamed | copied
deriving DecidableEq, Repr

structure DiffHunk where
  hunk_id : String
  old_start : Nat
  new_start : Nat
  header : String
deriving DecidableEq, Repr

structure DiffFileEntry where
  file_id : String
  status : DiffFileStatus
  language : Option String
  hunks : List DiffHunk
deriving DecidableEq, Repr

structure DiffIndex where
  diff_index_version : Nat
  files : List DiffFileEntry
deriving DecidableEq, Repr

/-- A hunk as accumulated before finalization. -/
structure RawHunk where
  oldStart : Nat
  newStart : Nat
  header : String
deriving DecidableEq, Repr

structure WorkingDiffFile where
  oldPath : Option String
  newPath : Option String
  status : DiffFileStatus
  binary : Bool
  hunks : List RawHunk
deriving DecidableEq, Repr

/-! ## Parser helpers -/

/-- Models `path.startsWith("a/") || path.startsWith("b/")` stripping, with
the source's falsiness guard (`!path`). -/
def stripPrefix : Option String → Option String
  | none => none
  | some p =>
    if p.data.isEmpty then none
    else if strStartsWith p "a/" || strStartsWith p "b/" then some (strDrop p 2)
    else some p

/-- Models `unquotePath` (strip one pair of surrounding double quotes). -/
def unquotePath : Option String → Option String
  | none => none
  | some p =>
    if p.data.isEmpty then none
    else if strStartsWith p "\"" && strEndsWith p "\"" then
      some (strDropRight (strDrop p 1) 1)
    else some p

/-- Models `normalizePath`: trim, map the null device to null, unquote and
strip the `a/`/`b/` marker. -/
def normalizePath : Option String → Option String
  | none => none
  | some path =>
    if path.data.isEmpty then none
    else
      let trimmed := strTrim path
      if trimmed = "/dev/null" then none
      else stripPrefix (unquotePath (some trimmed))

/-- All characters outside the `\s` class. -/
def allNonWs (l : List Char) : Bool := l.all (fun c => !isJsWhitespace c)

/-- Match of `FILE_PATH_REGEX = ^(?:"[ab]\/(.+)"|[ab]\/([^\s]+)|\/dev\/null)$`
against a whole string, returning capture groups 1 and 2 (alternatives are
tried in the regular expression's order). -/
def matchFilePathRegex (s : String) : Option (Option String × Option String) :=
  if (strStartsWith s "\"a/" || strStartsWith s "\"b/") && strEndsWith s "\"" && 5 ≤ strLen s then
    some (some (strDropRight (strDrop s 3) 1), none)
  else if (strStartsWith s "a/" || strStartsWith s "b/") && 3 ≤ strLen s
      && allNonWs (s.data.drop 2) then
    some (none, some (strDrop s 2))
  else if s = "/dev/null" then some (none, none)
  else none

/-- Models `parseFilePathLine` (`normalizePath(match[1] ?? match[2] ?? line)`). -/
def parseFilePathLine (line : String) : Option String :=
  match matchFilePathRegex line with
  | none => none
  | some (g1, g2) => normalizePath (orOpt g1 (orOpt g2 (some line)))

/-- Match of the `b`-side alternative `(?:"b\/(.+)"|b\/([^\s]+))$` of
`DIFF_HEADER_REGEX` against the remainder of the line. -/
def matchBPart (s : String) : Option String :=
  if strStartsWith s "\"b/" && strEndsWith s "\"" && 5 ≤ strLen s then
    some (strDropRight (strDrop s 3) 1)
  else if strStartsWith s "b/" && 3 ≤ strLen s && allNonWs (s.data.drop 2) then
    some (strDrop s 2)
  else none

/-- One backtracking step for the greedy `"a\/(.+)"` alternative: close the
quote at index `j` of `rest`, require a following space and a `b`-side match
of everything after it. -/
def tryQuotedAAt (rest : List Char) (j : Nat) : Option (String × String) :=
  if 4 ≤ j && j + 1 < rest.length && rest.getD j '-' = '"' && rest.getD (j + 1) '-' = ' ' then
    match matchBPart ⟨rest.drop (j + 2)⟩ with
    | some b => some (⟨(rest.take j).drop 3⟩, b)
    | none => none
  else none

/-- Greedy backtracking: try the closing quote from the right end leftwards
(the `.+` group is greedy, so the rightmost viable closing quote wins). -/
def tryQuotedADesc (rest : List Char) : Nat → Option (String × String)
  | 0 => tryQuotedAAt rest 0
  | j + 1 =>
    match tryQuotedAAt rest (j + 1) with
    | some r => some r
    | none => tryQuotedADesc rest j

/-- The quoted `a`-side alternative `"a\/(.+)"` (followed by a space and the
`b` part) of `DIFF_HEADER_REGEX`. -/
def matchAQuoted (rest : List Char) : Option (String × String) :=
  if listHasPre "\"a/".data rest then tryQuotedADesc rest (rest.length - 1) else none

/-- The bare `a`-side alternative `a\/([^\s]+)`: the capture is the maximal
non-whitespace run (no shorter run can be followed by the required literal
space), then the `b` part must match the rest of the line. -/
def matchABare (rest : List Char) : Option (String × String) :=
  if listHasPre "a/".data rest then
    let tail := rest.drop 2
    let run := tail.takeWhile (fun c => !isJsWhitespace c)
    if 1 ≤ run.length then
      match tail.drop run.length with
      | ' ' :: bpart =>
        match matchBPart ⟨bpart⟩ with
        | some b => some (⟨run⟩, b)
        | none => none
      | _ => none
    else none
  else none

/-- Match of
`DIFF_HEADER_REGEX = ^diff --git (?:"a\/(.+)"|a\/([^\s]+)) (?:"b\/(.+)"|b\/([^\s]+))$`,
returning the contents of whichever `a`/`b` capture groups matched (this is
what `extractPath` reads out of the match object). -/
def matchDiffHeader (line : String) : Option (String × String) :=
  if strStartsWith line "diff --git " then
    let rest := line.data.drop 11
    match matchAQuoted rest with
    | some r => some r
    | none => matchABare rest
  else none

/-- Models `parseDiffHeader`. -/
def parseDiffHeader (line : String) : Option (Option String × Option String) :=
  match matchDiffHeader line with
  | none => none
  | some (a, b) => some (normalizePath (some a), normalizePath (some b))

/-- Split a leading run of decimal digits. -/
def chompDigits (l : List Char) : List Char × List Char :=
  (l.takeWhile isDigitCh, l.dropWhile isDigitCh)

/-- The optional `(?:,\d+)?` group: a comma must be followed by at least one
digit, otherwise the group matches nothing and the following literal space
fails on the comma. -/
def parseHunkAfterNum (l : List Char) : Option (List Char) :=
  match l with
  | ',' :: rest =>
    let (ds, rest') := chompDigits rest
    if ds.isEmpty then none else some rest'
  | _ => some l

/-- Match of `HUNK_HEADER_REGEX = ^@@ -(\d+)(?:,\d+)? \+(\d+)(?:,\d+)? @@`
(not end-anchored), returning the two captured integers. -/
def parseHunkHeader (line : String) : Option (Nat × Nat) :=
  match line.data with
  | '@' :: '@' :: ' ' :: '-' :: rest =>
    let (d1, r1) := chompDigits rest
    if d1.isEmpty then none
    else
      match parseHunkAfterNum r1 with
      | none => none
      | some r2 =>
        match r2 with
        | ' ' :: '+' :: r3 =>
          let (d2, r4) := chompDigits r3
          if d2.isEmpty then none
          else
            match parseHunkAfterNum r4 with
            | none => none
            | some r5 =>
              match r5 with
              | ' ' :: '@' :: '@' :: _ => some (digitsToNat d1, digitsToNat d2)
              | _ => none
        | _ => none
  | _ => none

/-- Models `determineFileId` (`??` chains over nullable paths, defaulting to
the empty string). -/
def determineFileId (file : WorkingDiffFile) : String :=
  match file.status with
  | .deleted => (orOpt file.oldPath file.newPath).getD ""
  | .renamed => (orOpt file.newPath file.oldPath).getD ""
  | .copied => (orOpt file.newPath file.oldPath).getD ""
  | _ => (orOpt file.newPath file.oldPath).getD ""

/-- The last index of `c` in `l`, if any. -/
def lastIdxOf (c : Char) (l : List Char) : Option Nat :=
  match l with
  | [] => none
  | a :: as =>
    match lastIdxOf c as with
    | some i => some (i + 1)
    | none => if a = c then some 0 else none

/-- Models `detectLanguage`: lowercased extension of the final path segment,
absent when there is no dot, the dot is first, or the dot is last. -/
def detectLanguage (path : String) : Option String :=
  let filename := (splitOnCh '/' path.data).getLastD []
  if filename.isEmpty then none
  else
    match lastIdxOf '.' filename with
    | none => none
    | some i =>
      if i = 0 || i = filename.length - 1 then none
      else some (strToLower ⟨filename.drop (i + 1)⟩)

/-- Models `createWorkingFile`. -/
def createWorkingFile (header : Option String × Option String) : WorkingDiffFile :=
  ⟨header.1, header.2, .modified, false, []⟩

/-- Hunk-id assignment of `finalizeWorkingFile`'s indexed map:
`` `${fileId}#h${index}` `` in encounter order, 0-based. -/
def assignHunkIds (fileId : String) : Nat → List RawHunk → List DiffHunk
  | _, [] => []
  | i, h :: hs =>
    ⟨fileId ++ "#h" ++ Nat.repr i, h.oldStart, h.newStart, h.header⟩ ::
      assignHunkIds fileId (i + 1) hs

/-- Models `finalizeWorkingFile`: discard a null or binary accumulator or one
with no resolvable non-empty file id, otherwise emit the entry (the source
binds `determineFileId file` once as `fileId`; it is inlined here). -/
def finalizeWorkingFile : Option WorkingDiffFile → Option DiffFileEntry
  | none => none
  | some file =>
    if file.binary then none
    else if (determineFileId file).data.isEmpty then none
    else some ⟨determineFileId file, file.status, detectLanguage (determineFileId file),
      assignHunkIds (determineFileId file) 0 file.hunks⟩

/-- Models `registerMetaLine`. -/
def registerMetaLine (line : String) (file : WorkingDiffFile) : WorkingDiffFile :=
  if strStartsWith line "new file mode" then { file with status := .added }
  else if strStartsWith line "deleted file mode" then { file with status := .deleted }
  else if strStartsWith line "rename from " then
    let path := normalizePath (some (strDrop line 12))
    { file with status := .renamed, oldPath := orOpt path file.oldPath }
  else if strStartsWith line "rename to " then
    let path := normalizePath (some (strDrop line 10))
    { file with status := .renamed, newPath := orOpt path file.newPath }
  else if strStartsWith line "copy from " then
    let path := normalizePath (some (strDrop line 10))
    { file with status := .copied, oldPath := orOpt path file.oldPath }
  else if strStartsWith line "copy to " then
    let path := normalizePath (some (strDrop line 8))
    { file with status := .copied, newPath := orOpt path file.newPath }
  else file

/-- Models `updateFilePathsFromMarker` (`--- ` / `+++ ` lines). -/
def updateFilePathsFromMarker (line : String) (file : WorkingDiffFile) : WorkingDiffFile :=
  if strStartsWith line "--- " then
    let f := { file with oldPath := orOpt (parseFilePathLine (strDrop line 4)) file.oldPath }
    if optFalsy f.oldPath then { f with status := .added } else f
  else if strStartsWith line "+++ " then
    let f := { file with newPath := orOpt (parseFilePathLine (strDrop line 4)) file.newPath }
    if optFalsy f.newPath then
      { f with status := if f.status = .renamed then f.status else .deleted }
    else f
  else file

/-- The binary-marker test of `registerBinaryMarker`. -/
def isBinaryMarkerLine (line : String) : Bool :=
  strStartsWith line "Binary files " || strStartsWith line "Binary file " ||
    strStartsWith line "GIT binary patch"

/-- Models `registerBinaryMarker`. -/
def registerBinaryMarker (line : String) (file : WorkingDiffFile) : WorkingDiffFile :=
  if isBinaryMarkerLine line then { file with binary := true } else file

/-- Models `registerHunk`. -/
def registerHunk (line : String) (file : WorkingDiffFile) : WorkingDiffFile :=
  if !(strStartsWith line "@@") then file
  else
    match parseHunkHeader line with
    | none => file
    | some (o, n) => { file with hunks := file.hunks ++ [⟨o, n, line⟩] }

/-! ## The line-oriented single pass of `parseUnifiedDiff` -/

/-- The mutable loop state of `parseUnifiedDiff`: emitted entries plus the
current accumulator. -/
structure ParseState where
  files : List DiffFileEntry
  current : Option WorkingDiffFile
deriving DecidableEq, Repr

/-- Models the `flushCurrent` closure. -/
def flushCurrent (s : ParseState) : ParseState :=
  ⟨s.files ++ (finalizeWorkingFile s.current).toList, none⟩

/-- The metadata-line guard of the main loop. -/
def isMetaLine (line : String) : Bool :=
  strStartsWith line "new file mode" || strStartsWith line "deleted file mode" ||
    strStartsWith line "rename from " || strStartsWith line "rename to " ||
    strStartsWith line "copy from " || strStartsWith line "copy to "

/-- The body of the `for (const line of lines)` loop of `parseUnifiedDiff`.
The source calls `registerBinaryMarker(line, currentFile)` in place and then
dispatches on the (possibly updated) current file; here
`registerBinaryMarker line cf` is that updated accumulator, inlined into each
branch. -/
def processLine (s : ParseState) (line : String) : ParseState :=
  if strStartsWith line "diff --git " then
    { flushCurrent s with current := (parseDiffHeader line).map createWorkingFile }
  else
    match s.current with
    | none => s
    | some cf =>
      if (registerBinaryMarker line cf).binary then
        { s with current := some (registerBinaryMarker line cf) }
      else if strStartsWith line "@@" then
        { s with current := some (registerHunk line (registerBinaryMarker line cf)) }
      else if strStartsWith line "--- " || strStartsWith line "+++ " then
        { s with current := some (updateFilePathsFromMarker line (registerBinaryMarker line cf)) }
      else if isMetaLine line then
        { s with current := some (registerMetaLine line (registerBinaryMarker line cf)) }
      else { s with current := some (registerBinaryMarker line cf) }

/-- `parseUnifiedDiff` on an already-split line list. -/
def parseLines (lines : List String) : DiffIndex :=
  ⟨1, (flushCurrent (lines.foldl processLine ⟨[], none⟩)).files⟩

/-- Models `normalizeDiffLineEndings`. -/
def normalizeDiffLineEndings (s : String) : String := ⟨replaceCrlf s.data⟩

/-- Models `parseUnifiedDiff`. -/
def parseUnifiedDiff (diffText : String) : DiffIndex :=
  parseLines (strSplitOnCh '\n' (normalizeDiffLineEndings diffText))

/-! ## Review plan data model (src/lib/review-plan-schema.ts) -/

inductive Priority where
  | high | medium | low
deriving DecidableEq, Repr

structure DiffRef where
  file_id : String
  hunk_ids : List String
deriving DecidableEq, Repr

structure ReviewStep where
  step_id : String
  title : String
  description : String
  objective : String
  priority : Priority
  diff_refs : List DiffRef
  notes_suggested : List String
  badges : List String
deriving DecidableEq, Repr

structure PrOverview where
  title : String
  summary : String
deriving DecidableEq, Repr

structure EndState where
  acceptance_checks : List String
  risk_calls : List String
deriving DecidableEq, Repr

structure ReviewPlan where
  version : Nat
  pr_overview : PrOverview
  steps : List ReviewStep
  end_state : EndState
deriving DecidableEq, Repr

/-! ### Zod schema checks

`ReviewPlanSchema.parse` validates structure and otherwise returns the value
unchanged; we model it as a boolean validity check plus an `Except`. -/

/-- `z.string().min(1)`. -/
def strOk (s : String) : Bool := 1 ≤ s.data.length

/-- `DiffReferenceSchema`. -/
def diffRefValid (r : DiffRef) : Bool :=
  strOk r.file_id && 1 ≤ r.hunk_ids.length && r.hunk_ids.all strOk

/-- `ReviewStepSchema` (the priority enum is enforced by the Lean type). -/
def reviewStepValid (s : ReviewStep) : Bool :=
  strOk s.step_id && strOk s.title && strOk s.description && strOk s.objective &&
    1 ≤ s.diff_refs.length && s.diff_refs.all diffRefValid &&
    s.notes_suggested.all strOk && s.badges.all strOk

/-- `ReviewPlanSchema`. -/
def reviewPlanValid (p : ReviewPlan) : Bool :=
  p.version == 1 && strOk p.pr_overview.title && strOk p.pr_overview.summary &&
    p.steps.length ≤ 6 && p.steps.all reviewStepValid &&
    p.end_state.acceptance_checks.all strOk && p.end_state.risk_calls.all strOk

/-- The errors the pipeline can throw: a schema-validation failure
(`z.ZodError`), the generator's `NoObjectGeneratedError`, and every other
error class (network, provider, auth, the adapter's generic `Error`).  The
`code` payload distinguishes distinct error objects. -/
inductive ThrownError where
  | zod (code : Nat)
  | noObject (code : Nat)
  | other (code : Nat)
deriving DecidableEq, Repr

/-- `ReviewPlanSchema.parse`: return the plan unchanged or throw a `ZodError`. -/
def reviewPlanParse (p : ReviewPlan) : Except ThrownError ReviewPlan :=
  if reviewPlanValid p then .ok p else .error (.zod 0)

/-! ## Heuristic grouping engine (src/lib/heuristic-steps.ts) -/

inductive GroupCategory where
  | docs | tests | config | feature | misc
deriving DecidableEq, Repr

structure GroupContext where
  key : String
  category : GroupCategory
  topSegment : Option String
  files : List DiffFileEntry
deriving DecidableEq, Repr

structure BuildHeuristicReviewPlanOptions where
  diffIndex : DiffIndex
  prTitle : Option String
  prDescription : Option String

/-- Membership in a fixed string set (`Set.has` on the constant sets). -/
def strListHas (l : List String) (s : String) : Bool := l.any (fun x => x == s)

def docExtensions : List String := ["md", "mdx", "rst", "adoc", "txt"]

def testKeywords : List String := ["__tests__", "spec", "test", "fixture"]

def configExtensions : List String := ["json", "yml", "yaml", "toml", "ini", "conf", "config"]

def configFilenames : List String :=
  ["package.json", "pnpm-lock.yaml", "tsconfig.json", "eslint.config.mjs", ".eslintrc",
   ".eslintrc.json", ".eslintrc.js", "vite.config.ts", "vitest.config.mts", "next.config.ts"]

/-- `STATUS_VERBS`. -/
def statusVerb : DiffFileStatus → String
  | .added => "added"
  | .deleted => "removed"
  | .modified => "updated"
  | .renamed => "renamed"
  | .copied => "copied"

/-- `CATEGORY_SORT_ORDER`. -/
def categorySortOrder : GroupCategory → Int
  | .docs => 0
  | .tests => 1
  | .config => 2
  | .feature => 3
  | .misc => 4

/-- Models `normalizePathLower`. -/
def normalizePathLower (path : String) : String := strToLower path

/-- Models `isDocumentationFile`. -/
def isDocumentationFile (file : DiffFileEntry) : Bool :=
  let lower := normalizePathLower file.file_id
  if strListHas docExtensions (strToLower (file.language.getD "")) then true
  else if strIncludes lower "/docs/" || strStartsWith lower "docs/" ||
      strIncludes lower "readme" || strIncludes lower "changelog" then true
  else false

/-- Models `isTestFile`. -/
def isTestFile (file : DiffFileEntry) : Bool :=
  let lower := normalizePathLower file.file_id
  testKeywords.any (fun keyword => strIncludes lower keyword)

/-- Models `isConfigFile`. -/
def isConfigFile (file : DiffFileEntry) : Bool :=
  let lower := normalizePathLower file.file_id
  let filename := (strSplitOnCh '/' file.file_id).getLastD file.file_id
  if strListHas configExtensions (strToLower (file.language.getD "")) then true
  else if strListHas configFilenames filename then true
  else if strIncludes lower "/config/" || strStartsWith lower "config/" ||
      strIncludes lower ".github/" then true
  else false

/-- Models `analyzeFile` (first matching category wins). -/
def analyzeFile (file : DiffFileEntry) : GroupContext :=
  if isDocumentationFile file then ⟨"docs", .docs, none, [file]⟩
  else if isTestFile file then ⟨"tests", .tests, none, [file]⟩
  else if isConfigFile file then ⟨"config", .config, none, [file]⟩
  else
    let segments := strSplitOnCh '/' file.file_id
    let topSegment := if 1 < segments.length then segments.getD 0 "" else "(root)"
    ⟨"feature:" ++ topSegment, .feature, some topSegment, [file]⟩

/-- One `merged.set` step of `mergeGroupContexts`: a JavaScript `Map` keeps a
present key at its original insertion position and appends a new key. -/
def upsertGroup : List GroupContext → GroupContext → List GroupContext
  | [], c => [c]
  | g :: gs, c =>
    if g.key = c.key then { g with files := g.files ++ c.files } :: gs
    else g :: upsertGroup gs c

/-- Models `mergeGroupContexts` (insertion-order-preserving merge by key). -/
def mergeGroupContexts (contexts : List GroupContext) : List GroupContext :=
  contexts.foldl upsertGroup []

/-- Models `summarizeFiles`.  The empty case reproduces JavaScript's template
output on an empty array; it is unreachable because groups are never empty. -/
def summarizeFiles (files : List DiffFileEntry) : String :=
  let fileIds := files.map (·.file_id)
  match fileIds with
  | [] => "undefined, undefined +-2 more"
  | [a] => a
  | [a, b] => a ++ " and " ++ b
  | a :: b :: rest => a ++ ", " ++ b ++ " +" ++ Nat.repr rest.length ++ " more"

/-- First-occurrence deduplication (`new Set(...)` iterated in insertion
order). -/
def dedupFirstAux (seen : List String) : List String → List String
  | [] => []
  | x :: xs =>
    if strListHas seen x then dedupFirstAux seen xs
    else x :: dedupFirstAux (seen ++ [x]) xs

def dedupFirst (l : List String) : List String := dedupFirstAux [] l

/-- `Array.prototype.join`. -/
def joinSep (sep : String) : List String → String
  | [] => ""
  | [a] => a
  | a :: rest => a ++ sep ++ joinSep sep rest

/-- Models `summarizeStatuses`. -/
def summarizeStatuses (files : List DiffFileEntry) : String :=
  let unique := dedupFirst (files.map (fun file => statusVerb file.status))
  match unique with
  | [] => "updated"
  | [a] => a
  | _ => joinSep ", " unique.dropLast ++ " and " ++ unique.getLastD ""

/-- Models `humanizeSegment`. -/
def humanizeSegment (segment : Option String) : String :=
  match segment with
  | none => "root files"
  | some s =>
    if s.data.isEmpty || s = "(root)" then "root files"
    else if s = "src" then "source code"
    else
      let replaced : List Char := s.data.map (fun c => if c = '-' || c = '_' then ' ' else c)
      match replaced with
      | [] => ""
      | c :: rest => ⟨Char.toUpper c :: rest⟩

/-- The per-category step template data returned by the `describe*` helpers. -/
structure StepDescriptor where
  title : String
  description : String
  objective : String
  priority : Priority
  notes : List String
  badges : List String
deriving DecidableEq, Repr

/-- Models `describeFeatureGroup`. -/
def describeFeatureGroup (group : GroupContext) : StepDescriptor :=
  let fileSummary := summarizeFiles group.files
  let statusSummary := summarizeStatuses group.files
  let label := humanizeSegment group.topSegment
  ⟨"Review " ++ label ++ " changes",
   "Focus on " ++ statusSummary ++ " files: " ++ fileSummary ++ ".",
   "Exercise the affected " ++ label ++ " paths to ensure behavior stays correct.",
   .high,
   ["Probe the main flows these files touch for regressions."],
   ["Code"]⟩

/-- Models `describeDocsGroup`. -/
def describeDocsGroup (group : GroupContext) : StepDescriptor :=
  let fileSummary := summarizeFiles group.files
  ⟨"Review documentation updates",
   "Confirm documentation reflects the latest behavior in " ++ fileSummary ++ ".",
   "Check for accuracy, clarity, and formatting issues in the updated docs.",
   .low,
   ["Look for outdated references or typos."],
   ["Docs"]⟩

/-- Models `describeTestsGroup`. -/
def describeTestsGroup (group : GroupContext) : StepDescriptor :=
  let fileSummary := summarizeFiles group.files
  ⟨"Review test coverage adjustments",
   "Review the updated test coverage across " ++ fileSummary ++ ".",
   "Ensure tests cover the intended scenarios and still pass.",
   .medium,
   ["Verify that assertions align with the new behavior."],
   ["Tests"]⟩

/-- Models `describeConfigGroup`. -/
def describeConfigGroup (group : GroupContext) : StepDescriptor :=
  let fileSummary := summarizeFiles group.files
  ⟨"Review configuration updates",
   "Inspect configuration tweaks within " ++ fileSummary ++ ".",
   "Ensure configuration loads correctly locally and in CI.",
   .medium,
   ["Validate that defaults and environment-specific values remain correct."],
   ["Config"]⟩

/-- Models `describeMiscGroup`. -/
def describeMiscGroup (group : GroupContext) : StepDescriptor :=
  let fileSummary := summarizeFiles group.files
  ⟨"Review consolidated updates",
   "Sweep through the remaining updates: " ++ fileSummary ++ ".",
   "Spot-check these smaller changes for unintended side effects.",
   .medium,
   ["Scan for inconsistencies that the heuristics bundled together."],
   ["Mixed"]⟩

/-- Models `describeGroup` (closed tag switch). -/
def describeGroup (group : GroupContext) : StepDescriptor :=
  match group.category with
  | .docs => describeDocsGroup group
  | .tests => describeTestsGroup group
  | .config => describeConfigGroup group
  | .misc => describeMiscGroup group
  | .feature => describeFeatureGroup group

/-- Models `toDiffRefs`: each file contributes its full hunk-id list. -/
def toDiffRefs (files : List DiffFileEntry) : List DiffRef :=
  files.map (fun file => ⟨file.file_id, file.hunks.map (·.hunk_id)⟩)

/-- Models `aggregateAcceptanceChecks` (ordered-set accumulation; the fixed
sentences are pairwise distinct, so order-preserving concatenation models the
`Set`). -/
def aggregateAcceptanceChecks (groups : List GroupContext) : List String :=
  let checks :=
    (if groups.any (fun g => g.category == .tests) then
      ["Run pnpm test to confirm coverage remains green."] else []) ++
    (if groups.any (fun g => g.category == .docs) then
      ["Proofread updated documentation for accuracy and formatting."] else []) ++
    (if groups.any (fun g => g.category == .config) then
      ["Validate configuration changes by running pnpm build."] else []) ++
    (if groups.any (fun g => g.category == .feature) then
      ["Smoke test the impacted flows in the application."] else [])
  if checks.isEmpty then ["Confirm the diff renders as expected."] else checks

/-- Models `aggregateRiskCalls`. -/
def aggregateRiskCalls (groups : List GroupContext) : List String :=
  let risks :=
    (if groups.any (fun g => g.category == .feature) then
      ["Logic changes could introduce regressions in the touched modules."] else []) ++
    (if groups.any (fun g => g.category == .config) then
      ["Configuration adjustments could impact build or deployment pipelines."] else []) ++
    (if groups.any (fun g => g.category == .tests) then
      ["Test changes might conceal gaps in coverage if not verified carefully."] else []) ++
    (if groups.any (fun g => g.category == .docs) then
      ["Documentation updates may drift from actual behavior if review misses nuances."] else [])
  if risks.isEmpty then ["Heuristic grouping may have missed contextual dependencies."] else risks

/-- A group's total hunk count (`files.reduce((acc, file) => acc + file.hunks.length, 0)`). -/
def groupWeight (g : GroupContext) : Nat :=
  g.files.foldl (fun acc file => acc + file.hunks.length) 0

/-- Stable insertion into a list sorted by an integer comparator: the new
element goes after every element the comparator does not place strictly
after it. -/
def stableInsert (c : α → α → Int) (x : α) : List α → List α
  | [] => [x]
  | y :: ys => if c y x ≤ 0 then y :: stableInsert c x ys else x :: y :: ys

/-- Models `Array.prototype.sort` with a comparator: ECMAScript sorts are
stable, and for a consistent comparator the stable result is the unique list
ordered by the comparator with ties in original order, which left-to-right
stable insertion produces. -/
def stableSortByCmp (c : α → α → Int) (l : List α) : List α :=
  l.foldl (fun acc x => stableInsert c x acc) []

/-- The descending-total-hunk-count comparator of `limitGroupCount`. -/
def weightCmp (a b : GroupContext) : Int :=
  (groupWeight b : Int) - (groupWeight a : Int)

/-- Models `limitGroupCount`: more than 6 groups → keep the 5 heaviest and
merge the remainder into one synthetic misc group appended last. -/
def limitGroupCount (groups : List GroupContext) : List GroupContext :=
  if groups.length ≤ 6 then groups
  else
    let sorted := stableSortByCmp weightCmp groups
    let primary := sorted.take 5
    let remaining := sorted.drop 5
    primary ++ [⟨"misc", .misc, none, remaining.flatMap (·.files)⟩]

/-- The comparator of `sortGroups`: category rank, then descending file
count, then the key comparison. -/
def groupCmp (a b : GroupContext) : Int :=
  let categoryOrder := categorySortOrder a.category - categorySortOrder b.category
  if categoryOrder ≠ 0 then categoryOrder
  else
    let byFileCount := (b.files.length : Int) - (a.files.length : Int)
    if byFileCount ≠ 0 then byFileCount
    else cmpCharList a.key.data b.key.data

/-- Models `sortGroups`. -/
def sortGroups (groups : List GroupContext) : List GroupContext :=
  stableSortByCmp groupCmp groups

/-- One step of `buildSteps`'s indexed map. -/
def mkStep (index : Nat) (group : GroupContext) : ReviewStep :=
  let descriptor := describeGroup group
  ⟨"step-" ++ Nat.repr (index + 1), descriptor.title, descriptor.description,
   descriptor.objective, descriptor.priority, toDiffRefs group.files,
   descriptor.notes, descriptor.badges⟩

def buildStepsAux : Nat → List GroupContext → List ReviewStep
  | _, [] => []
  | i, g :: gs => mkStep i g :: buildStepsAux (i + 1) gs

/-- Models `buildSteps`. -/
def buildSteps (groups : List GroupContext) : List ReviewStep :=
  buildStepsAux 0 groups

/-- The overview label of a category (`buildOverview`'s switch). -/
def areaLabel : GroupCategory → String
  | .docs => "documentation"
  | .tests => "tests"
  | .config => "configuration"
  | .feature => "code"
  | .misc => "mixed updates"

/-- Models `buildOverview`. -/
def buildOverview (groups : List GroupContext) (options : BuildHeuristicReviewPlanOptions) :
    PrOverview :=
  let fileCount := options.diffIndex.files.length
  let areaLabels := dedupFirst (groups.map (fun g => areaLabel g.category))
  let overviewTitle :=
    match options.prTitle with
    | some t =>
      if 0 < (strTrim t).data.length then "Heuristic walkthrough for: " ++ strTrim t
      else "Heuristic walkthrough across " ++ Nat.repr fileCount ++ " file" ++
        (if fileCount = 1 then "" else "s")
    | none =>
      "Heuristic walkthrough across " ++ Nat.repr fileCount ++ " file" ++
        (if fileCount = 1 then "" else "s")
  let focusAreas := if 0 < areaLabels.length then joinSep ", " areaLabels
    else "general diff inspection"
  let summary := "This heuristic baseline groups the diff into " ++ Nat.repr groups.length ++
    " review step" ++ (if groups.length = 1 then "" else "s") ++ " covering " ++ focusAreas ++ "."
  ⟨overviewTitle, summary⟩

/-- `diffIndex.files.filter((file) => file.hunks.length > 0)`. -/
def filesWithHunks (diffIndex : DiffIndex) : List DiffFileEntry :=
  diffIndex.files.filter (fun file => 0 < file.hunks.length)

/-- The merged heuristic groups of a diff index (the `mergedGroups` local of
`buildHeuristicReviewPlan`). -/
def mergedGroupsOf (diffIndex : DiffIndex) : List GroupContext :=
  mergeGroupContexts ((filesWithHunks diffIndex).map analyzeFile)

/-- The `sortedGroups` local of `buildHeuristicReviewPlan`:
classify, merge, cap, sort. -/
def sortedGroupsOf (diffIndex : DiffIndex) : List GroupContext :=
  sortGroups (limitGroupCount (mergedGroupsOf diffIndex))

/-- The canonical empty plan returned when no file has hunks. -/
def emptyReviewPlan : ReviewPlan :=
  ⟨1,
   ⟨"No diff content detected", "The supplied diff did not contain any reviewable hunks."⟩,
   [],
   ⟨["Confirm the pull request exposes code or documentation changes."],
    ["Empty diffs may indicate fetch or permissions issues."]⟩⟩

/-- Models `buildHeuristicReviewPlan`, including the final
`ReviewPlanSchema.parse` self-check (a thrown `ZodError` is the `.error`
case). -/
def buildHeuristicReviewPlan (options : BuildHeuristicReviewPlanOptions) :
    Except ThrownError ReviewPlan :=
  if (filesWithHunks options.diffIndex).length = 0 then
    reviewPlanParse emptyReviewPlan
  else
    reviewPlanParse
      ⟨1, buildOverview (sortedGroupsOf options.diffIndex) options,
       buildSteps (sortedGroupsOf options.diffIndex),
       ⟨aggregateAcceptanceChecks (sortedGroupsOf options.diffIndex),
        aggregateRiskCalls (sortedGroupsOf options.diffIndex)⟩⟩

/-! ## Model-assisted grouping adapter (src/lib/llm-steps.ts)

Only the adapter's control flow is observable in its contract; the prompt it
assembles is a pure string handed to the external generator, which we model
as an attempt-indexed oracle (each network call may produce a different
outcome).  A `generateObject` call either resolves with an object or throws;
the adapter then re-validates the object defensively, and a validation throw
is caught by the same `catch` as a generation throw. -/

inductive GenOutcome where
  | success (object : ReviewPlan)
  | failure (error : ThrownError)

/-- Models `isSchemaMismatchError` (`z.ZodError` or `NoObjectGeneratedError`). -/
def isSchemaMismatchError : ThrownError → Bool
  | .zod _ => true
  | .noObject _ => true
  | .other _ => false

structure BuildLlmReviewPlanOptions where
  diffIndex : DiffIndex
  prTitle : Option String
  prDescription : Option String
  baselinePlan : Option ReviewPlan
  generate : Nat → GenOutcome
  maxAttempts : Int

/-- `Math.max(1, maxAttempts)` as an iteration count. -/
def clampAttempts (maxAttempts : Int) : Nat := (max 1 maxAttempts).toNat

/-- The observable outcome of one attempt of the generation loop's `try`
body: the generator's outcome followed by the defensive
`ReviewPlanSchema.parse`. -/
def attemptResult (generate : Nat → GenOutcome) (attempt : Nat) :
    Except ThrownError ReviewPlan :=
  match generate attempt with
  | .failure e => .error e
  | .success obj => reviewPlanParse obj

/-- The `for (let attempt = 0; attempt < Math.max(1, maxAttempts); ...)` loop
of `buildLlmReviewPlan`, with its `catch` classification and the after-loop
rethrow of the last error (`.other 0` models the generic
`Error("LLM grouping failed without a specific error.")`).  The loop is
compiled with an explicit count of remaining iterations: `remaining` is
`total - attempt` at every call (the entry point passes `attempt = 0` and
`remaining = total`), so `remaining = 0` is exactly the loop guard
`attempt < Math.max(1, maxAttempts)` failing. -/
def attemptLoopGo (generate : Nat → GenOutcome) (total : Nat) (attempt : Nat) :
    Nat → Option ThrownError → Except ThrownError ReviewPlan
  | 0, lastError =>
    (match lastError with
     | some e => .error e
     | none => .error (.other 0))
  | remaining + 1, _lastError =>
    match attemptResult generate attempt with
    | .ok plan => .ok plan
    | .error e =>
      if isSchemaMismatchError e && attempt < total - 1 then
        attemptLoopGo generate total (attempt + 1) remaining (some e)
      else .error e

/-- The `referencePlan` computation of `buildLlmReviewPlan`
(`baselinePlan ?? buildHeuristicReviewPlan(...)`), which runs before the
zero-files check and can itself throw. -/
def referencePlanExc (o : BuildLlmReviewPlanOptions) : Except ThrownError ReviewPlan :=
  match o.baselinePlan with
  | some p => .ok p
  | none => buildHeuristicReviewPlan ⟨o.diffIndex, o.prTitle, o.prDescription⟩

/-- Models `buildLlmReviewPlan`. -/
def buildLlmReviewPlan (o : BuildLlmReviewPlanOptions) : Except ThrownError ReviewPlan :=
  match referencePlanExc o with
  | .error e => .error e
  | .ok referencePlan =>
    if o.diffIndex.files.length = 0 then .ok referencePlan
    else attemptLoopGo o.generate (clampAttempts o.maxAttempts) 0 (clampAttempts o.maxAttempts) none

/-! # Theorems -/

/-! ## General helper lemmas -/

theorem string_data_nil_iff (s : String) : s.data = [] ↔ s = "" :=
  ⟨fun h => String.ext (h.trans rfl), fun h => (congrArg String.data h).trans rfl⟩

/-- A successful `reviewPlanParse` returns its input unchanged. -/
theorem reviewPlanParse_ok {q p : ReviewPlan} (h : reviewPlanParse q = .ok p) : p = q := by
  unfold reviewPlanParse at h
  split at h
  · exact ((Except.ok.injEq _ _).mp h).symm
  · exact absurd h (by simp)

theorem two_le_length_of_mem_ne {α : Type} {l : List α} {a b : α}
    (ha : a ∈ l) (hb : b ∈ l) (hne : a ≠ b) : 2 ≤ l.length := by
  induction l with
  | nil => simp at ha
  | cons x xs ih =>
    rcases List.mem_cons.mp ha with rfl | ha'
    · rcases List.mem_cons.mp hb with rfl | hb'
      · exact absurd rfl hne
      · have := List.length_pos.mpr (List.ne_nil_of_mem hb')
        simp only [List.length_cons]
        omega
    · have := List.length_pos.mpr (List.ne_nil_of_mem ha')
      simp only [List.length_cons]
      omega

theorem string_append_assoc (a b c : String) : a ++ b ++ c = a ++ (b ++ c) := by
  apply String.ext
  simp [String.data_append, List.append_assoc]

/-! ## C1 — files with zero parsed hunks are *not* excluded from the index -/

/-- C1 (counterexample): the claim says a `diff --git` block with no
parseable `@@` hunk header — here a pure rename with no content change —
produces no entry in the DiffIndex.  On the code it does: `finalizeWorkingFile`
never inspects the hunk list, so the block below is finalized into an entry
whose hunk list is empty. -/
theorem c1_counterexample :
    (parseUnifiedDiff
        "diff --git a/old.ts b/new.ts\nsimilarity index 100%\nrename from old.ts\nrename to new.ts").files
      = [⟨"new.ts", DiffFileStatus.renamed, some "ts", []⟩] := by
  decide

/-- C1 (amended): `finalizeWorkingFile` discards a (non-null) accumulator
exactly when its binary flag is set or no non-empty file identifier resolves;
an accumulator with an empty recorded-hunk list is still emitted as an entry
with an empty hunk list, so zero-hunk blocks appear in the index and are only
filtered out downstream by the grouping engine. -/
theorem c1_amended_finalize_characterization (wf : WorkingDiffFile) :
    finalizeWorkingFile (some wf) = none ↔ (wf.binary = true ∨ determineFileId wf = "") := by
  unfold finalizeWorkingFile
  by_cases hb : wf.binary = true
  · simp [hb]
  · simp only [hb, if_neg, false_or]
    by_cases hid : (determineFileId wf).data.isEmpty = true
    · have heq : determineFileId wf = "" := by
        apply (string_data_nil_iff _).mp
        cases hdata : (determineFileId wf).data with
        | nil => rfl
        | cons c cs => rw [hdata] at hid; exact absurd hid (by simp [List.isEmpty])
      simp [hid, heq]
    · have hne : ¬ determineFileId wf = "" := by
        intro h
        apply hid
        rw [h]
        rfl
      simp [hid, hne]

/-! ## C7 — rename/copy metadata vs `---`/`+++` markers: last writer wins -/

/-- C7 (counterexample): the claim says the rename metadata path takes
precedence over a differing parseable `---`/`+++` path in the same block.  In
the block below `rename to meta.ts` is followed by `+++ b/marker.ts`, and the
finalized file identifier is the marker's path, not the metadata's: each path
assignment simply overwrites the previous one. -/
theorem c7_counterexample :
    (parseUnifiedDiff
        "diff --git a/old.ts b/new.ts\nrename from old.ts\nrename to meta.ts\n+++ b/marker.ts\n@@ -1 +1 @@").files.map
        DiffFileEntry.file_id = ["marker.ts"] := by
  decide

/-- C7 (amended): path assignments from rename/copy metadata lines and from
parseable `---`/`+++` marker lines apply in block order with last-writer-wins
semantics: a rename-from metadata line overwrites the old path inferred from
an earlier `--- ` marker (for any accumulator state), and a parseable `--- `
marker processed after the metadata line overwrites the metadata's path in
turn.  The metadata path therefore prevails exactly when no later marker
supplies a parseable path for the same side. -/
theorem c7_amended_last_writer_wins (wf : WorkingDiffFile) :
    (registerMetaLine "rename from meta.ts"
        (updateFilePathsFromMarker "--- a/marker.ts" wf)).oldPath = some "meta.ts"
    ∧ (updateFilePathsFromMarker "--- a/marker.ts"
        (registerMetaLine "rename from meta.ts" wf)).oldPath = some "marker.ts" := by
  constructor <;> rfl

/-! ## C8 — the overview title embeds the PR title, it is not the PR title -/

/-- C8 (counterexample): the claim says that with a non-blank supplied PR
title the plan's overview title *is* the supplied title verbatim.  On the
code the title is the sentence `Heuristic walkthrough for: <trimmed title>`,
which differs from the supplied title `My PR`. -/
theorem c8_counterexample :
    (buildHeuristicReviewPlan
        ⟨⟨1, [⟨"src/a.ts", DiffFileStatus.modified, some "ts",
          [⟨"src/a.ts#h0", 1, 1, "@@ -1 +1 @@"⟩]⟩]⟩, some "My PR", none⟩).toOption.map
        (fun p => p.pr_overview.title) = some "Heuristic walkthrough for: My PR"
    ∧ "Heuristic walkthrough for: My PR" ≠ "My PR" := by
  constructor <;> decide

/-- C8 (amended): for every DiffIndex with at least one hunk-bearing file,
when a non-blank PR title is supplied the returned plan's overview title is
`Heuristic walkthrough for: ` followed by the trimmed supplied title, and
when the title is blank or absent it is the generic sentence
`Heuristic walkthrough across N file(s)` over the total file count. -/
theorem c8_amended_overview_title (o : BuildHeuristicReviewPlanOptions) (p : ReviewPlan)
    (hok : buildHeuristicReviewPlan o = .ok p)
    (hne : (filesWithHunks o.diffIndex).length ≠ 0) :
    p.pr_overview.title =
      match o.prTitle with
      | some t =>
        if 0 < (strTrim t).data.length then "Heuristic walkthrough for: " ++ strTrim t
        else "Heuristic walkthrough across " ++ Nat.repr o.diffIndex.files.length ++ " file" ++
          (if o.diffIndex.files.length = 1 then "" else "s")
      | none =>
        "Heuristic walkthrough across " ++ Nat.repr o.diffIndex.files.length ++ " file" ++
          (if o.diffIndex.files.length = 1 then "" else "s") := by
  obtain ⟨di, pt, pd⟩ := o
  unfold buildHeuristicReviewPlan at hok
  rw [if_neg hne] at hok
  rw [reviewPlanParse_ok hok]
  cases pt <;> rfl

def c8WitnessOptions : BuildHeuristicReviewPlanOptions :=
  ⟨⟨1, [⟨"lib/util.ts", DiffFileStatus.modified, some "ts",
    [⟨"lib/util.ts#h0", 3, 3, "@@ -3 +3 @@"⟩]⟩]⟩, some "  Polish utils  ", none⟩

def c8WitnessPlan : ReviewPlan :=
  (buildHeuristicReviewPlan c8WitnessOptions).toOption.getD emptyReviewPlan

/-- C8 (witness): the amended title formula evaluated at a concrete input
with a padded non-blank PR title. -/
theorem c8_amended_overview_title_witness :
    c8WitnessPlan.pr_overview.title = "Heuristic walkthrough for: Polish utils" :=
  (c8_amended_overview_title c8WitnessOptions c8WitnessPlan rfl (by decide)).trans (by decide)

/-! ## C9 — the overview counts every index entry, including zero-hunk files -/

/-- C9: for a DiffIndex containing at least one hunk-bearing file and at
least one file with an empty hunk list, and no PR title, the heuristic plan's
overview title is `Heuristic walkthrough across N files` with `N` the *total*
entry count of the index — zero-hunk entries are counted even though they are
filtered out before grouping and contribute no step. -/
theorem c9_overview_counts_all_files (o : BuildHeuristicReviewPlanOptions) (p : ReviewPlan)
    (f₁ f₂ : DiffFileEntry)
    (hok : buildHeuristicReviewPlan o = .ok p)
    (hf₁ : f₁ ∈ o.diffIndex.files) (h₁ : f₁.hunks ≠ [])
    (hf₂ : f₂ ∈ o.diffIndex.files) (h₂ : f₂.hunks = [])
    (ht : o.prTitle = none) :
    p.pr_overview.title =
      "Heuristic walkthrough across " ++ Nat.repr o.diffIndex.files.length ++ " files" := by
  have hmem : f₁ ∈ filesWithHunks o.diffIndex := by
    unfold filesWithHunks
    refine List.mem_filter.mpr ⟨hf₁, ?_⟩
    simpa [List.length_pos] using h₁
  have hne : (filesWithHunks o.diffIndex).length ≠ 0 := by
    have := List.length_pos.mpr (List.ne_nil_of_mem hmem)
    omega
  have hcount : 2 ≤ o.diffIndex.files.length := by
    refine two_le_length_of_mem_ne hf₁ hf₂ ?_
    intro h
    rw [h] at h₁
    exact h₁ h₂
  have htitle := c8_amended_overview_title o p hok hne
  rw [ht] at htitle
  rw [htitle]
  rw [if_neg (by omega)]
  rw [string_append_assoc]
  rfl

def c9WitnessOptions : BuildHeuristicReviewPlanOptions :=
  ⟨⟨1, [⟨"lib/core.ts", DiffFileStatus.modified, some "ts",
    [⟨"lib/core.ts#h0", 1, 1, "@@ -1 +1 @@"⟩]⟩,
    ⟨"lib/renamed.ts", DiffFileStatus.renamed, some "ts", []⟩]⟩, none, none⟩

def c9WitnessPlan : ReviewPlan :=
  (buildHeuristicReviewPlan c9WitnessOptions).toOption.getD emptyReviewPlan

/-- C9 (witness): a two-entry index (one hunk-bearing file, one zero-hunk
rename) titles the walkthrough across 2 files. -/
theorem c9_overview_counts_all_files_witness :
    c9WitnessPlan.pr_overview.title = "Heuristic walkthrough across 2 files" :=
  c9_overview_counts_all_files c9WitnessOptions c9WitnessPlan
    ⟨"lib/core.ts", DiffFileStatus.modified, some "ts", [⟨"lib/core.ts#h0", 1, 1, "@@ -1 +1 @@"⟩]⟩
    ⟨"lib/renamed.ts", DiffFileStatus.renamed, some "ts", []⟩
    rfl (by decide) (by decide) (by decide) (by decide) rfl

/-! ## C10 — the attempt budget is clamped to at least one -/

theorem one_le_clampAttempts (m : Int) : 1 ≤ clampAttempts m := by
  unfold clampAttempts
  omega

/-- C10: for a non-empty diff index whose reference plan resolves, when
`maxAttempts` is zero or negative the adapter still makes exactly one
generation attempt and returns that attempt's outcome (a success is returned,
an error is rethrown immediately); the clamped budget is always at least
one, so the function never returns without either taking the zero-files
shortcut or invoking the generator at least once. -/
theorem c10_attempt_budget_clamped (o : BuildLlmReviewPlanOptions) (rp : ReviewPlan)
    (href : referencePlanExc o = .ok rp)
    (hne : o.diffIndex.files.length ≠ 0)
    (hma : o.maxAttempts ≤ 0) :
    buildLlmReviewPlan o = attemptResult o.generate 0 ∧ 1 ≤ clampAttempts o.maxAttempts := by
  have hclamp : clampAttempts o.maxAttempts = 1 := by
    unfold clampAttempts
    omega
  refine ⟨?_, one_le_clampAttempts _⟩
  simp only [buildLlmReviewPlan, href]
  rw [if_neg hne, hclamp]
  cases h : attemptResult o.generate 0 with
  | ok plan => simp [attemptLoopGo, h]
  | error e => simp [attemptLoopGo, h]

def c10WitnessOptions : BuildLlmReviewPlanOptions :=
  ⟨⟨1, [⟨"lib/a.ts", DiffFileStatus.modified, some "ts",
    [⟨"lib/a.ts#h0", 1, 1, "@@ -1 +1 @@"⟩]⟩]⟩, none, none,
   some emptyReviewPlan, fun _ => .failure (.other 9), -2⟩

/-- C10 (witness): with `maxAttempts = -2` and a generator that fails with a
non-schema error, the adapter makes exactly one attempt and rethrows that
error. -/
theorem c10_attempt_budget_clamped_witness :
    buildLlmReviewPlan c10WitnessOptions = attemptResult c10WitnessOptions.generate 0
    ∧ 1 ≤ clampAttempts c10WitnessOptions.maxAttempts :=
  c10_attempt_budget_clamped c10WitnessOptions emptyReviewPlan rfl (by decide) (by decide)

/-! ## C3 — the adapter's retry contract -/

/-- If every remaining attempt fails with a schema-mismatch error, the loop
rethrows the final attempt's error. -/
theorem attemptLoopGo_all_schema (generate : Nat → GenOutcome) (total : Nat) :
    ∀ (remaining attempt : Nat) (lastError : Option ThrownError),
      remaining = total - attempt → attempt < total →
      (∀ i, attempt ≤ i → i < total →
        ∃ e, attemptResult generate i = .error e ∧ isSchemaMismatchError e = true) →
      ∃ e, attemptResult generate (total - 1) = .error e ∧
        attemptLoopGo generate total attempt remaining lastError = .error e := by
  intro remaining
  induction remaining with
  | zero => intro attempt lastError hinv hlt hall; omega
  | succ n ih =>
    intro attempt lastError hinv hlt hall
    obtain ⟨e, he, hm⟩ := hall attempt (Nat.le_refl _) hlt
    simp only [attemptLoopGo, he]
    by_cases hlast : attempt < total - 1
    · have hd : (isSchemaMismatchError e && decide (attempt < total - 1)) = true := by
        rw [hm]
        simp [hlast]
      rw [if_pos hd]
      exact ih (attempt + 1) (some e) (by omega) (by omega)
        (fun i hi1 hi2 => hall i (by omega) hi2)
    · have hd : (isSchemaMismatchError e && decide (attempt < total - 1)) = false := by
        simp [hlast]
      rw [if_neg (by simp [hd])]
      refine ⟨e, ?_, rfl⟩
      rw [show total - 1 = attempt by omega]
      exact he

/-- A non-retriable error at attempt `k` (after schema-mismatch failures) is
rethrown immediately; generation outcomes beyond attempt `k` are irrelevant. -/
theorem attemptLoopGo_nonretriable (generate : Nat → GenOutcome) (total k : Nat)
    (e : ThrownError) (hk : k < total) (hmf : isSchemaMismatchError e = false)
    (hke : attemptResult generate k = .error e) :
    ∀ (remaining attempt : Nat) (lastError : Option ThrownError),
      remaining = total - attempt → attempt ≤ k →
      (∀ i, attempt ≤ i → i < k →
        ∃ e2, attemptResult generate i = .error e2 ∧ isSchemaMismatchError e2 = true) →
      attemptLoopGo generate total attempt remaining lastError = .error e := by
  intro remaining
  induction remaining with
  | zero => intro attempt lastError hinv hle hall; omega
  | succ n ih =>
    intro attempt lastError hinv hle hall
    by_cases hak : attempt = k
    · subst hak
      simp only [attemptLoopGo, hke]
      rw [if_neg (by simp [hmf])]
    · have h1 : attempt < k := by omega
      obtain ⟨e2, he2, hm2⟩ := hall attempt (Nat.le_refl _) h1
      simp only [attemptLoopGo, he2]
      have hd : (isSchemaMismatchError e2 && decide (attempt < total - 1)) = true := by
        rw [hm2]
        simp only [Bool.true_and, decide_eq_true_eq]
        omega
      rw [if_pos hd]
      exact ih (attempt + 1) (some e2) (by omega) (by omega)
        (fun i hi1 hi2 => hall i (by omega) hi2)

/-- A successful attempt `k` (after schema-mismatch failures) is returned. -/
theorem attemptLoopGo_success (generate : Nat → GenOutcome) (total k : Nat)
    (p : ReviewPlan) (hk : k < total) (hkp : attemptResult generate k = .ok p) :
    ∀ (remaining attempt : Nat) (lastError : Option ThrownError),
      remaining = total - attempt → attempt ≤ k →
      (∀ i, attempt ≤ i → i < k →
        ∃ e2, attemptResult generate i = .error e2 ∧ isSchemaMismatchError e2 = true) →
      attemptLoopGo generate total attempt remaining lastError = .ok p := by
  intro remaining
  induction remaining with
  | zero => intro attempt lastError hinv hle hall; omega
  | succ n ih =>
    intro attempt lastError hinv hle hall
    by_cases hak : attempt = k
    · subst hak
      simp [attemptLoopGo, hkp]
    · have h1 : attempt < k := by omega
      obtain ⟨e2, he2, hm2⟩ := hall attempt (Nat.le_refl _) h1
      simp only [attemptLoopGo, he2]
      have hd : (isSchemaMismatchError e2 && decide (attempt < total - 1)) = true := by
        rw [hm2]
        simp only [Bool.true_and, decide_eq_true_eq]
        omega
      rw [if_pos hd]
      exact ih (attempt + 1) (some e2) (by omega) (by omega)
        (fun i hi1 hi2 => hall i (by omega) hi2)

/-- Every successful loop result comes from some attempt's generation. -/
theorem attemptLoopGo_ok_mem (generate : Nat → GenOutcome) (total : Nat) :
    ∀ (remaining attempt : Nat) (lastError : Option ThrownError) (p : ReviewPlan),
      attemptLoopGo generate total attempt remaining lastError = .ok p →
      ∃ i, attempt ≤ i ∧ i < attempt + remaining ∧ attemptResult generate i = .ok p := by
  intro remaining
  induction remaining with
  | zero =>
    intro attempt lastError p hok
    cases lastError with
    | some e => exact absurd hok (by simp [attemptLoopGo])
    | none => exact absurd hok (by simp [attemptLoopGo])
  | succ n ih =>
    intro attempt lastError p hok
    simp only [attemptLoopGo] at hok
    cases har : attemptResult generate attempt with
    | ok q =>
      simp only [har] at hok
      have hq : q = p := (Except.ok.injEq _ _).mp hok
      exact ⟨attempt, Nat.le_refl _, by omega, by rw [har, hq]⟩
    | error e =>
      simp only [har] at hok
      by_cases hc : (isSchemaMismatchError e && decide (attempt < total - 1)) = true
      · rw [if_pos hc] at hok
        obtain ⟨i, h1, h2, h3⟩ := ih (attempt + 1) (some e) p hok
        exact ⟨i, by omega, by omega, h3⟩
      · rw [if_neg hc] at hok
        exact absurd hok (by simp)

/-- C3: the adapter's retry contract on a non-empty diff index (with the
reference plan resolving): (1) when every attempt of the clamped budget fails
with a schema-mismatch error, the loop rethrows the last attempt's error;
(2) a non-schema error at any attempt — after schema-mismatch failures — is
rethrown immediately, regardless of what later attempts would have produced;
(3) a success after schema-mismatch failures is returned; (4) every
successful return comes from some generation attempt, never from the baseline
plan. -/
theorem c3_llm_retry_contract (o : BuildLlmReviewPlanOptions) (rp : ReviewPlan)
    (href : referencePlanExc o = .ok rp)
    (hne : o.diffIndex.files.length ≠ 0) :
    ((∀ i, i < clampAttempts o.maxAttempts →
        ∃ e, attemptResult o.generate i = .error e ∧ isSchemaMismatchError e = true) →
      ∃ e, attemptResult o.generate (clampAttempts o.maxAttempts - 1) = .error e ∧
        buildLlmReviewPlan o = .error e)
    ∧ (∀ (k : Nat) (e : ThrownError), k < clampAttempts o.maxAttempts →
        (∀ i, i < k → ∃ e2, attemptResult o.generate i = .error e2 ∧
          isSchemaMismatchError e2 = true) →
        attemptResult o.generate k = .error e → isSchemaMismatchError e = false →
        buildLlmReviewPlan o = .error e)
    ∧ (∀ (k : Nat) (p : ReviewPlan), k < clampAttempts o.maxAttempts →
        (∀ i, i < k → ∃ e2, attemptResult o.generate i = .error e2 ∧
          isSchemaMismatchError e2 = true) →
        attemptResult o.generate k = .ok p →
        buildLlmReviewPlan o = .ok p)
    ∧ (∀ p, buildLlmReviewPlan o = .ok p →
        ∃ i, i < clampAttempts o.maxAttempts ∧ attemptResult o.generate i = .ok p) := by
  have hrw : buildLlmReviewPlan o =
      attemptLoopGo o.generate (clampAttempts o.maxAttempts) 0
        (clampAttempts o.maxAttempts) none := by
    simp only [buildLlmReviewPlan, href]
    rw [if_neg hne]
  refine ⟨?_, ?_, ?_, ?_⟩
  · intro hall
    obtain ⟨e, he, hres⟩ := attemptLoopGo_all_schema o.generate (clampAttempts o.maxAttempts)
      (clampAttempts o.maxAttempts) 0 none rfl
      (by have := one_le_clampAttempts o.maxAttempts; omega)
      (fun i _ hi2 => hall i hi2)
    exact ⟨e, he, by rw [hrw]; exact hres⟩
  · intro k e hk hall hke hmf
    rw [hrw]
    exact attemptLoopGo_nonretriable o.generate (clampAttempts o.maxAttempts) k e hk hmf hke
      (clampAttempts o.maxAttempts) 0 none rfl (Nat.zero_le _) (fun i _ hi2 => hall i hi2)
  · intro k p hk hall hkp
    rw [hrw]
    exact attemptLoopGo_success o.generate (clampAttempts o.maxAttempts) k p hk hkp
      (clampAttempts o.maxAttempts) 0 none rfl (Nat.zero_le _) (fun i _ hi2 => hall i hi2)
  · intro p hok
    rw [hrw] at hok
    obtain ⟨i, _, h2, h3⟩ := attemptLoopGo_ok_mem o.generate (clampAttempts o.maxAttempts)
      (clampAttempts o.maxAttempts) 0 none p hok
    exact ⟨i, by omega, h3⟩

def c3WitnessOptions : BuildLlmReviewPlanOptions :=
  ⟨⟨1, [⟨"lib/b.ts", DiffFileStatus.modified, some "ts",
    [⟨"lib/b.ts#h0", 1, 1, "@@ -1 +1 @@"⟩]⟩]⟩, none, none,
   some emptyReviewPlan, fun _ => .failure (.other 7), 3⟩

/-- C3 (witness): a non-retriable (non-schema) failure on the first attempt
is rethrown immediately, never replaced by the baseline plan. -/
theorem c3_llm_retry_contract_witness :
    buildLlmReviewPlan c3WitnessOptions = .error (.other 7) :=
  (c3_llm_retry_contract c3WitnessOptions emptyReviewPlan rfl (by decide)).2.1 0 (.other 7)
    (by decide) (fun i hi => absurd hi (Nat.not_lt_zero i)) rfl rfl

/-! ## C4 — hunk identifiers are `<file_id>#h0 .. #h(N-1)` in encounter order -/

theorem assignHunkIds_map (fileId : String) :
    ∀ (l : List RawHunk) (n : Nat),
      (assignHunkIds fileId n l).map DiffHunk.hunk_id =
        (List.range l.length).map (fun i => fileId ++ "#h" ++ Nat.repr (n + i)) := by
  intro l
  induction l with
  | nil => intro n; rfl
  | cons h t ih =>
    intro n
    simp only [assignHunkIds, List.map_cons, List.length_cons, List.range_succ_eq_map,
      List.map_map]
    congr 1
    rw [ih (n + 1)]
    apply List.map_congr_left
    intro a _
    simp only [Function.comp_apply]
    have harith : n + 1 + a = n + a.succ := by omega
    rw [harith]

theorem assignHunkIds_length (fileId : String) :
    ∀ (l : List RawHunk) (n : Nat), (assignHunkIds fileId n l).length = l.length := by
  intro l
  induction l with
  | nil => intro n; rfl
  | cons h t ih =>
    intro n
    simp only [assignHunkIds, List.length_cons, ih (n + 1)]

/-- Every entry emitted by finalization satisfies the hunk-id naming scheme. -/
theorem finalizeWorkingFile_hunkIds {owf : Option WorkingDiffFile} {e : DiffFileEntry}
    (h : finalizeWorkingFile owf = some e) :
    e.hunks.map DiffHunk.hunk_id =
      (List.range e.hunks.length).map (fun i => e.file_id ++ "#h" ++ Nat.repr i) := by
  cases owf with
  | none => exact absurd h (by simp [finalizeWorkingFile])
  | some wf =>
    simp only [finalizeWorkingFile] at h
    by_cases hb : wf.binary = true
    · rw [if_pos hb] at h
      exact absurd h (by simp)
    · rw [if_neg hb] at h
      by_cases hid : (determineFileId wf).data.isEmpty = true
      · rw [if_pos hid] at h
        exact absurd h (by simp)
      · rw [if_neg hid] at h
        have he := (Option.some.injEq _ _).mp h
        rw [← he]
        simp only
        rw [assignHunkIds_map (determineFileId wf) wf.hunks 0,
          assignHunkIds_length (determineFileId wf) wf.hunks 0]
        apply List.map_congr_left
        intro a _
        rw [Nat.zero_add]

/-- Membership in the optional finalized entry pins the finalization result. -/
theorem mem_finalize_toList {owf : Option WorkingDiffFile} {e : DiffFileEntry}
    (h : e ∈ (finalizeWorkingFile owf).toList) : finalizeWorkingFile owf = some e := by
  cases hf : finalizeWorkingFile owf with
  | none => rw [hf] at h; simp at h
  | some e' =>
    rw [hf] at h
    simp only [Option.toList_some, List.mem_singleton] at h
    exact congrArg some h.symm

/-- Each `processLine` step either keeps the emitted entries or appends the
finalization of the current accumulator. -/
theorem processLine_files_cases (s : ParseState) (line : String) :
    (processLine s line).files = s.files ∨
    (processLine s line).files = s.files ++ (finalizeWorkingFile s.current).toList := by
  unfold processLine
  by_cases hd : strStartsWith line "diff --git " = true
  · rw [if_pos hd]
    right
    rfl
  · rw [if_neg hd]
    left
    cases hc : s.current with
    | none => rfl
    | some cf =>
      simp only
      split_ifs <;> rfl

/-- Any per-entry property guaranteed by finalization holds of every entry in
the parse result. -/
theorem parseLines_entries_spec (P : DiffFileEntry → Prop)
    (hP : ∀ (owf : Option WorkingDiffFile) (e : DiffFileEntry),
      finalizeWorkingFile owf = some e → P e) :
    ∀ (lines : List String) (s : ParseState),
      (∀ e ∈ s.files, P e) →
      ∀ e ∈ (flushCurrent (lines.foldl processLine s)).files, P e := by
  intro lines
  induction lines with
  | nil =>
    intro s hs e he
    simp only [List.foldl_nil, flushCurrent] at he
    rcases List.mem_append.mp he with h | h
    · exact hs e h
    · exact hP _ _ (mem_finalize_toList h)
  | cons l ls ih =>
    intro s hs e he
    rw [List.foldl_cons] at he
    refine ih (processLine s l) ?_ e he
    intro e' he'
    rcases processLine_files_cases s l with hcase | hcase
    · rw [hcase] at he'
      exact hs e' he'
    · rw [hcase] at he'
      rcases List.mem_append.mp he' with h | h
      · exact hs e' h
      · exact hP _ _ (mem_finalize_toList h)

/-- C4: for every diff text and every emitted file entry with `N` hunks, the
hunk identifiers are exactly `<file_id>#h0` through `<file_id>#h(N-1)`,
assigned 0-based in the order the hunk headers were encountered; the formula
depends only on the entry itself, so the identifiers are independent of
whatever other files appear in the same diff. -/
theorem c4_hunk_ids (text : String) (e : DiffFileEntry)
    (he : e ∈ (parseUnifiedDiff text).files) :
    e.hunks.map DiffHunk.hunk_id =
      (List.range e.hunks.length).map (fun i => e.file_id ++ "#h" ++ Nat.repr i) := by
  refine parseLines_entries_spec
    (fun e => e.hunks.map DiffHunk.hunk_id =
      (List.range e.hunks.length).map (fun i => e.file_id ++ "#h" ++ Nat.repr i))
    (fun owf e h => finalizeWorkingFile_hunkIds h)
    (strSplitOnCh '\n' (normalizeDiffLineEndings text)) ⟨[], none⟩ ?_ e he
  intro e' he'
  simp at he'

def c4WitnessText : String := "diff --git a/r.md b/r.md\n@@ -9 +9 @@\ndiff --git a/x.ts b/x.ts\n@@ -1 +2 @@\n@@ -3 +4 @@ ctx"

def c4WitnessEntry : DiffFileEntry :=
  ⟨"x.ts", DiffFileStatus.modified, some "ts",
   [⟨"x.ts#h0", 1, 2, "@@ -1 +2 @@"⟩, ⟨"x.ts#h1", 3, 4, "@@ -3 +4 @@ ctx"⟩]⟩

/-- C4 (witness): a concrete two-file diff whose second file carries two
hunks named `x.ts#h0`, `x.ts#h1`. -/
theorem c4_hunk_ids_witness :
    c4WitnessEntry ∈ (parseUnifiedDiff c4WitnessText).files ∧
    c4WitnessEntry.hunks.map DiffHunk.hunk_id =
      (List.range c4WitnessEntry.hunks.length).map
        (fun i => c4WitnessEntry.file_id ++ "#h" ++ Nat.repr i) :=
  ⟨by decide, c4_hunk_ids c4WitnessText c4WitnessEntry (by decide)⟩

/-! ## C6 — a binary marker suppresses the whole block -/

theorem bool_eq_false {b : Bool} (h : ¬ b = true) : b = false := by
  cases b
  · rfl
  · exact absurd rfl h

theorem registerBinaryMarker_binary (line : String) (cf : WorkingDiffFile) :
    (registerBinaryMarker line cf).binary = (isBinaryMarkerLine line || cf.binary) := by
  unfold registerBinaryMarker
  split_ifs with h
  · simp [h]
  · simp [bool_eq_false h]

theorem registerBinaryMarker_of_binary (line : String) {cf : WorkingDiffFile}
    (hb : cf.binary = true) : registerBinaryMarker line cf = cf := by
  unfold registerBinaryMarker
  split_ifs with h
  · cases cf with
    | mk o n st b hs =>
      simp only at hb
      subst hb
      rfl
  · rfl

/-- The working file produced by a non-header line (the source's in-place
mutation of `currentFile`, as a function). -/
def nextWorkingFile (line : String) (cf : WorkingDiffFile) : WorkingDiffFile :=
  if (registerBinaryMarker line cf).binary then registerBinaryMarker line cf
  else if strStartsWith line "@@" then registerHunk line (registerBinaryMarker line cf)
  else if strStartsWith line "--- " || strStartsWith line "+++ " then
    updateFilePathsFromMarker line (registerBinaryMarker line cf)
  else if isMetaLine line then registerMetaLine line (registerBinaryMarker line cf)
  else registerBinaryMarker line cf

theorem processLine_nonheader (fs : List DiffFileEntry) (cf : WorkingDiffFile) (line : String)
    (hd : strStartsWith line "diff --git " = false) :
    processLine ⟨fs, some cf⟩ line = ⟨fs, some (nextWorkingFile line cf)⟩ := by
  simp only [processLine, nextWorkingFile, hd, Bool.false_eq_true, if_false]
  split_ifs <;> rfl

/-- Once the binary flag is set (or the line is a binary marker), the next
accumulator has the binary flag set. -/
theorem nextWorkingFile_binary (line : String) (cf : WorkingDiffFile)
    (h : isBinaryMarkerLine line = true ∨ cf.binary = true) :
    (nextWorkingFile line cf).binary = true := by
  have hreg : (registerBinaryMarker line cf).binary = true := by
    rw [registerBinaryMarker_binary]
    rcases h with h | h <;> simp [h]
  unfold nextWorkingFile
  rw [if_pos hreg]
  exact hreg

theorem processLine_binary_skip (fs : List DiffFileEntry) (cf : WorkingDiffFile) (line : String)
    (hd : strStartsWith line "diff --git " = false) (hb : cf.binary = true) :
    processLine ⟨fs, some cf⟩ line = ⟨fs, some cf⟩ := by
  rw [processLine_nonheader fs cf line hd]
  unfold nextWorkingFile
  rw [registerBinaryMarker_of_binary line hb]
  rw [if_pos hb]

theorem processLine_none_nonheader (fs : List DiffFileEntry) (line : String)
    (hd : strStartsWith line "diff --git " = false) :
    processLine ⟨fs, none⟩ line = ⟨fs, none⟩ := by
  simp only [processLine, hd, Bool.false_eq_true, if_false]

theorem foldl_skip_binary (lines : List String) :
    ∀ (fs : List DiffFileEntry) (cf : WorkingDiffFile),
      (∀ l ∈ lines, strStartsWith l "diff --git " = false) → cf.binary = true →
      lines.foldl processLine ⟨fs, some cf⟩ = ⟨fs, some cf⟩ := by
  induction lines with
  | nil => intro fs cf _ _; rfl
  | cons l ls ih =>
    intro fs cf hnh hb
    rw [List.foldl_cons, processLine_binary_skip fs cf l (hnh l (List.mem_cons_self l ls)) hb]
    exact ih fs cf (fun x hx => hnh x (List.mem_cons_of_mem _ hx)) hb

theorem foldl_skip_none (lines : List String) :
    ∀ (fs : List DiffFileEntry),
      (∀ l ∈ lines, strStartsWith l "diff --git " = false) →
      lines.foldl processLine ⟨fs, none⟩ = ⟨fs, none⟩ := by
  induction lines with
  | nil => intro fs _; rfl
  | cons l ls ih =>
    intro fs hnh
    rw [List.foldl_cons, processLine_none_nonheader fs l (hnh l (List.mem_cons_self l ls))]
    exact ih fs (fun x hx => hnh x (List.mem_cons_of_mem _ hx))

theorem processLine_header (s : ParseState) (line : String)
    (hd : strStartsWith line "diff --git " = true) :
    processLine s line =
      ⟨(flushCurrent s).files, (parseDiffHeader line).map createWorkingFile⟩ := by
  unfold processLine
  rw [if_pos hd]

/-- Two binary accumulators are interchangeable for the remainder of the
parse: both are discarded at the next flush and ignore every line until the
next file header. -/
theorem foldl_binary_irrelevant (rest : List String) :
    ∀ (fs : List DiffFileEntry) (wf wf' : WorkingDiffFile),
      wf.binary = true → wf'.binary = true →
      (flushCurrent (rest.foldl processLine ⟨fs, some wf⟩)).files =
        (flushCurrent (rest.foldl processLine ⟨fs, some wf'⟩)).files := by
  induction rest with
  | nil =>
    intro fs wf wf' hb hb'
    simp [flushCurrent, finalizeWorkingFile, hb, hb']
  | cons l ls ih =>
    intro fs wf wf' hb hb'
    by_cases hd : strStartsWith l "diff --git " = true
    · have h1 : processLine ⟨fs, some wf⟩ l = processLine ⟨fs, some wf'⟩ l := by
        rw [processLine_header _ l hd, processLine_header _ l hd]
        simp [flushCurrent, finalizeWorkingFile, hb, hb']
      rw [List.foldl_cons, List.foldl_cons, h1]
    · have hdf := bool_eq_false hd
      rw [List.foldl_cons, List.foldl_cons, processLine_binary_skip fs wf l hdf hb,
        processLine_binary_skip fs wf' l hdf hb']
      exact ih fs wf wf' hb hb'

/-- A header-free block containing a binary marker leaves the emitted entries
untouched and the accumulator binary. -/
theorem foldl_block_binary (block : List String) :
    ∀ (fs : List DiffFileEntry) (cf : WorkingDiffFile),
      (∀ l ∈ block, strStartsWith l "diff --git " = false) →
      (∃ l ∈ block, isBinaryMarkerLine l = true) →
      ∃ cfB : WorkingDiffFile,
        block.foldl processLine ⟨fs, some cf⟩ = ⟨fs, some cfB⟩ ∧ cfB.binary = true := by
  induction block with
  | nil =>
    intro fs cf hnh hm
    obtain ⟨l, hl, _⟩ := hm
    simp at hl
  | cons l ls ih =>
    intro fs cf hnh hm
    have hdf : strStartsWith l "diff --git " = false := hnh l (List.mem_cons_self l ls)
    rw [List.foldl_cons, processLine_nonheader fs cf l hdf]
    by_cases hml : isBinaryMarkerLine l = true
    · have hb1 : (nextWorkingFile l cf).binary = true := nextWorkingFile_binary l cf (Or.inl hml)
      refine ⟨nextWorkingFile l cf, ?_, hb1⟩
      exact foldl_skip_binary ls fs (nextWorkingFile l cf)
        (fun x hx => hnh x (List.mem_cons_of_mem _ hx)) hb1
    · have hm' : ∃ x ∈ ls, isBinaryMarkerLine x = true := by
        obtain ⟨x, hx, hxm⟩ := hm
        rcases List.mem_cons.mp hx with rfl | hx'
        · exact absurd hxm hml
        · exact ⟨x, hx', hxm⟩
      exact ih fs (nextWorkingFile l cf) (fun x hx => hnh x (List.mem_cons_of_mem _ hx)) hm'

/-- C6: a file block that contains a binary marker line contributes no entry
to the DiffIndex, even when parseable `@@` hunk headers appeared earlier in
the same block: the whole parse is equal to the parse in which the block's
lines are replaced by a single binary marker. -/
theorem c6_binary_block_excluded (pre block post : List String) (header : String)
    (hh : strStartsWith header "diff --git " = true)
    (hm : ∃ l ∈ block, isBinaryMarkerLine l = true)
    (hnh : ∀ l ∈ block, strStartsWith l "diff --git " = false) :
    parseLines (pre ++ header :: (block ++ post)) =
      parseLines (pre ++ header :: "Binary files a/x and b/x differ" :: post) := by
  unfold parseLines
  rw [List.foldl_append, List.foldl_append, List.foldl_cons, List.foldl_cons,
    List.foldl_append, List.foldl_cons]
  rw [processLine_header _ header hh]
  congr 1
  cases hX : (parseDiffHeader header).map createWorkingFile with
  | none =>
    rw [foldl_skip_none block _ hnh,
      processLine_none_nonheader _ "Binary files a/x and b/x differ" (by decide)]
  | some wf₀ =>
    obtain ⟨cfB, hfold, hbB⟩ :=
      foldl_block_binary block (flushCurrent (pre.foldl processLine ⟨[], none⟩)).files wf₀ hnh hm
    rw [hfold,
      processLine_nonheader _ wf₀ "Binary files a/x and b/x differ" (by decide)]
    exact foldl_binary_irrelevant post _ cfB _ hbB
      (nextWorkingFile_binary _ wf₀ (Or.inl (by decide)))

/-- C6 (witness): a block with a hunk header before the binary marker, spliced
between two ordinary file blocks. -/
theorem c6_binary_block_excluded_witness :
    strStartsWith "diff --git a/img.bin b/img.bin" "diff --git " = true
    ∧ parseLines (["diff --git a/p.ts b/p.ts", "@@ -1 +1 @@"] ++
        "diff --git a/img.bin b/img.bin" ::
          (["@@ -5 +6 @@", "Binary files a/img.bin and b/img.bin differ"] ++
            ["diff --git a/q.ts b/q.ts", "@@ -2 +2 @@"])) =
      parseLines (["diff --git a/p.ts b/p.ts", "@@ -1 +1 @@"] ++
        "diff --git a/img.bin b/img.bin" :: "Binary files a/x and b/x differ" ::
          ["diff --git a/q.ts b/q.ts", "@@ -2 +2 @@"]) :=
  ⟨by decide,
   c6_binary_block_excluded ["diff --git a/p.ts b/p.ts", "@@ -1 +1 @@"]
     ["@@ -5 +6 @@", "Binary files a/img.bin and b/img.bin differ"]
     ["diff --git a/q.ts b/q.ts", "@@ -2 +2 @@"]
     "diff --git a/img.bin b/img.bin" (by decide)
     ⟨"Binary files a/img.bin and b/img.bin differ", by decide, by decide⟩
     (by decide)⟩

/-! ## Stable-sort and grouping lemmas (for C2 and C5) -/

theorem mem_stableInsert {α : Type} (c : α → α → Int) (x : α) :
    ∀ (l : List α) (y : α), y ∈ stableInsert c x l ↔ y = x ∨ y ∈ l := by
  intro l
  induction l with
  | nil => intro y; simp [stableInsert]
  | cons a as ih =>
    intro y
    simp only [stableInsert]
    split_ifs with h
    · rw [List.mem_cons, ih y, List.mem_cons]
      tauto
    · simp only [List.mem_cons]

theorem mem_foldl_stableInsert {α : Type} (c : α → α → Int) :
    ∀ (l acc : List α) (y : α),
      y ∈ l.foldl (fun acc x => stableInsert c x acc) acc ↔ y ∈ acc ∨ y ∈ l := by
  intro l
  induction l with
  | nil => intro acc y; simp
  | cons a as ih =>
    intro acc y
    rw [List.foldl_cons, ih, mem_stableInsert, List.mem_cons]
    tauto

theorem mem_stableSortByCmp {α : Type} (c : α → α → Int) (l : List α) (y : α) :
    y ∈ stableSortByCmp c l ↔ y ∈ l := by
  unfold stableSortByCmp
  rw [mem_foldl_stableInsert]
  simp

theorem length_stableInsert {α : Type} (c : α → α → Int) (x : α) :
    ∀ l : List α, (stableInsert c x l).length = l.length + 1 := by
  intro l
  induction l with
  | nil => rfl
  | cons a as ih =>
    simp only [stableInsert]
    split_ifs
    · simp [ih]
    · simp

theorem length_foldl_stableInsert {α : Type} (c : α → α → Int) :
    ∀ (l acc : List α),
      (l.foldl (fun acc x => stableInsert c x acc) acc).length = acc.length + l.length := by
  intro l
  induction l with
  | nil => intro acc; simp
  | cons a as ih =>
    intro acc
    rw [List.foldl_cons, ih, length_stableInsert]
    simp only [List.length_cons]
    omega

theorem length_stableSortByCmp {α : Type} (c : α → α → Int) (l : List α) :
    (stableSortByCmp c l).length = l.length := by
  unfold stableSortByCmp
  rw [length_foldl_stableInsert]
  simp

theorem stableInsert_append_last {α : Type} (c : α → α → Int) (m : α) :
    ∀ l : List α, (∀ y ∈ l, c y m ≤ 0) → stableInsert c m l = l ++ [m] := by
  intro l
  induction l with
  | nil => intro _; rfl
  | cons a as ih =>
    intro h
    simp only [stableInsert]
    rw [if_pos (h a (List.mem_cons_self a as))]
    rw [ih (fun y hy => h y (List.mem_cons_of_mem _ hy))]
    rfl

/-- A stable sort of `l ++ [m]` keeps `m` last whenever the comparator never
places `m` strictly before an element of `l`. -/
theorem stableSortByCmp_concat {α : Type} (c : α → α → Int) (l : List α) (m : α)
    (h : ∀ y ∈ l, c y m ≤ 0) :
    stableSortByCmp c (l ++ [m]) = stableSortByCmp c l ++ [m] := by
  unfold stableSortByCmp
  rw [List.foldl_append, List.foldl_cons, List.foldl_nil]
  apply stableInsert_append_last
  intro y hy
  rcases (mem_foldl_stableInsert c l [] y).mp hy with h0 | h0
  · simp at h0
  · exact h y h0

theorem upsertGroup_files :
    ∀ (m : List GroupContext) (c g : GroupContext), g ∈ upsertGroup m c →
      ∀ f ∈ g.files, (∃ g₀ ∈ m, f ∈ g₀.files) ∨ f ∈ c.files := by
  intro m
  induction m with
  | nil =>
    intro c g hg f hf
    simp only [upsertGroup, List.mem_singleton] at hg
    subst hg
    exact Or.inr hf
  | cons a as ih =>
    intro c g hg f hf
    simp only [upsertGroup] at hg
    split_ifs at hg with h
    · rcases List.mem_cons.mp hg with rfl | hg'
      · rcases List.mem_append.mp hf with h1 | h1
        · exact Or.inl ⟨a, List.mem_cons_self _ _, h1⟩
        · exact Or.inr h1
      · exact Or.inl ⟨g, List.mem_cons_of_mem _ hg', hf⟩
    · rcases List.mem_cons.mp hg with rfl | hg'
      · exact Or.inl ⟨g, List.mem_cons_self _ _, hf⟩
      · rcases ih c g hg' f hf with ⟨g₀, hg₀, hf₀⟩ | h1
        · exact Or.inl ⟨g₀, List.mem_cons_of_mem _ hg₀, hf₀⟩
        · exact Or.inr h1

theorem foldl_upsertGroup_files :
    ∀ (ctxs acc : List GroupContext) (g : GroupContext),
      g ∈ ctxs.foldl upsertGroup acc → ∀ f ∈ g.files,
      (∃ g₀ ∈ acc, f ∈ g₀.files) ∨ ∃ c ∈ ctxs, f ∈ c.files := by
  intro ctxs
  induction ctxs with
  | nil => intro acc g hg f hf; exact Or.inl ⟨g, hg, hf⟩
  | cons c cs ih =>
    intro acc g hg f hf
    rw [List.foldl_cons] at hg
    rcases ih (upsertGroup acc c) g hg f hf with ⟨g₀, hg₀, hf₀⟩ | ⟨c', hc', hf'⟩
    · rcases upsertGroup_files acc c g₀ hg₀ f hf₀ with ⟨g₁, hg₁, hf₁⟩ | h1
      · exact Or.inl ⟨g₁, hg₁, hf₁⟩
      · exact Or.inr ⟨c, List.mem_cons_self _ _, h1⟩
    · exact Or.inr ⟨c', List.mem_cons_of_mem _ hc', hf'⟩

theorem upsertGroup_category :
    ∀ (m : List GroupContext) (c g : GroupContext), g ∈ upsertGroup m c →
      (∃ g₀ ∈ m, g.category = g₀.category) ∨ g.category = c.category := by
  intro m
  induction m with
  | nil =>
    intro c g hg
    simp only [upsertGroup, List.mem_singleton] at hg
    subst hg
    exact Or.inr rfl
  | cons a as ih =>
    intro c g hg
    simp only [upsertGroup] at hg
    split_ifs at hg with h
    · rcases List.mem_cons.mp hg with rfl | hg'
      · exact Or.inl ⟨a, List.mem_cons_self _ _, rfl⟩
      · exact Or.inl ⟨g, List.mem_cons_of_mem _ hg', rfl⟩
    · rcases List.mem_cons.mp hg with rfl | hg'
      · exact Or.inl ⟨g, List.mem_cons_self _ _, rfl⟩
      · rcases ih c g hg' with ⟨g₀, hg₀, hcat⟩ | hcat
        · exact Or.inl ⟨g₀, List.mem_cons_of_mem _ hg₀, hcat⟩
        · exact Or.inr hcat

theorem foldl_upsertGroup_category :
    ∀ (ctxs acc : List GroupContext) (g : GroupContext),
      g ∈ ctxs.foldl upsertGroup acc →
      (∃ g₀ ∈ acc, g.category = g₀.category) ∨ ∃ c ∈ ctxs, g.category = c.category := by
  intro ctxs
  induction ctxs with
  | nil => intro acc g hg; exact Or.inl ⟨g, hg, rfl⟩
  | cons c cs ih =>
    intro acc g hg
    rw [List.foldl_cons] at hg
    rcases ih (upsertGroup acc c) g hg with ⟨g₀, hg₀, hcat₀⟩ | ⟨c', hc', hcat'⟩
    · rcases upsertGroup_category acc c g₀ hg₀ with ⟨g₁, hg₁, hcat₁⟩ | hcat₁
      · exact Or.inl ⟨g₁, hg₁, hcat₀.trans hcat₁⟩
      · exact Or.inr ⟨c, List.mem_cons_self _ _, hcat₀.trans hcat₁⟩
    · exact Or.inr ⟨c', List.mem_cons_of_mem _ hc', hcat'⟩

theorem analyzeFile_category_ne_misc (f : DiffFileEntry) :
    (analyzeFile f).category ≠ GroupCategory.misc := by
  unfold analyzeFile
  split_ifs <;> simp

theorem analyzeFile_files (f : DiffFileEntry) : (analyzeFile f).files = [f] := by
  unfold analyzeFile
  split_ifs <;> rfl

/-- Merged groups never carry the misc category (it only arises from
capping). -/
theorem mergedGroups_category_ne_misc (d : DiffIndex) (g : GroupContext)
    (hg : g ∈ mergedGroupsOf d) : g.category ≠ GroupCategory.misc := by
  unfold mergedGroupsOf mergeGroupContexts at hg
  rcases foldl_upsertGroup_category _ [] g hg with ⟨g₀, hg₀, _⟩ | ⟨c, hc, hcat⟩
  · simp at hg₀
  · obtain ⟨f, _, rfl⟩ := List.mem_map.mp hc
    rw [hcat]
    exact analyzeFile_category_ne_misc f

theorem limitGroupCount_files (groups : List GroupContext) (g : GroupContext)
    (hg : g ∈ limitGroupCount groups) (f : DiffFileEntry) (hf : f ∈ g.files) :
    ∃ g₀ ∈ groups, f ∈ g₀.files := by
  unfold limitGroupCount at hg
  split_ifs at hg with h
  · exact ⟨g, hg, hf⟩
  · rcases List.mem_append.mp hg with h1 | h1
    · exact ⟨g, (mem_stableSortByCmp _ _ _).mp (List.mem_of_mem_take h1), hf⟩
    · simp only [List.mem_singleton] at h1
      subst h1
      obtain ⟨g₀, hg₀, hf₀⟩ := List.mem_flatMap.mp hf
      exact ⟨g₀, (mem_stableSortByCmp _ _ _).mp (List.mem_of_mem_drop hg₀), hf₀⟩

theorem buildStepsAux_length :
    ∀ (l : List GroupContext) (i : Nat), (buildStepsAux i l).length = l.length := by
  intro l
  induction l with
  | nil => intro i; rfl
  | cons a as ih =>
    intro i
    simp only [buildStepsAux, List.length_cons, ih (i + 1)]

theorem buildStepsAux_concat :
    ∀ (l : List GroupContext) (i : Nat) (g : GroupContext),
      buildStepsAux i (l ++ [g]) = buildStepsAux i l ++ [mkStep (i + l.length) g] := by
  intro l
  induction l with
  | nil => intro i g; simp [buildStepsAux]
  | cons a as ih =>
    intro i g
    show buildStepsAux i ((a :: as) ++ [g]) = _
    rw [List.cons_append]
    simp only [buildStepsAux]
    rw [ih (i + 1)]
    simp only [List.length_cons]
    have harith : i + 1 + as.length = i + (as.length + 1) := by omega
    rw [harith, List.cons_append]

theorem buildStepsAux_mem_refs :
    ∀ (l : List GroupContext) (i : Nat) (g : GroupContext), g ∈ l →
      ∃ s ∈ buildStepsAux i l, s.diff_refs = toDiffRefs g.files := by
  intro l
  induction l with
  | nil => intro i g hg; simp at hg
  | cons a as ih =>
    intro i g hg
    rcases List.mem_cons.mp hg with rfl | hg'
    · exact ⟨mkStep i g, List.mem_cons_self _ _, rfl⟩
    · obtain ⟨s, hs, hrefs⟩ := ih (i + 1) g hg'
      exact ⟨s, List.mem_cons_of_mem _ hs, hrefs⟩

theorem buildStepsAux_refs_mem :
    ∀ (l : List GroupContext) (i : Nat) (s : ReviewStep), s ∈ buildStepsAux i l →
      ∃ g ∈ l, s.diff_refs = toDiffRefs g.files := by
  intro l
  induction l with
  | nil => intro i s hs; simp [buildStepsAux] at hs
  | cons a as ih =>
    intro i s hs
    simp only [buildStepsAux] at hs
    rcases List.mem_cons.mp hs with rfl | hs'
    · exact ⟨a, List.mem_cons_self _ _, rfl⟩
    · obtain ⟨g, hg, hrefs⟩ := ih (i + 1) s hs'
      exact ⟨g, List.mem_cons_of_mem _ hg, hrefs⟩

/-- Every non-misc group compares at or before a misc group under the final
sort's comparator (category rank alone decides). -/
theorem groupCmp_le_zero_of_misc (g m : GroupContext)
    (hg : g.category ≠ GroupCategory.misc) (hm : m.category = GroupCategory.misc) :
    groupCmp g m ≤ 0 := by
  simp only [groupCmp, hm]
  cases h : g.category
  case misc => exact absurd h hg
  case docs => rw [if_pos (by decide)]; decide
  case tests => rw [if_pos (by decide)]; decide
  case config => rw [if_pos (by decide)]; decide
  case feature => rw [if_pos (by decide)]; decide

theorem sortGroups_concat_misc (l : List GroupContext) (m : GroupContext)
    (hl : ∀ y ∈ l, y.category ≠ GroupCategory.misc) (hm : m.category = GroupCategory.misc) :
    sortGroups (l ++ [m]) = sortGroups l ++ [m] := by
  unfold sortGroups
  apply stableSortByCmp_concat
  intro y hy
  exact groupCmp_le_zero_of_misc y m (hl y hy) hm

/-! ## C2 — the step cap: more than 6 groups collapse to exactly 6 steps -/

/-- C2: when the merged heuristic grouping yields more than 6 distinct
groups, the produced plan has exactly 6 steps; the synthetic misc step is
ordered last (title `Review consolidated updates`, badge `Mixed`) and its
diff references are exactly the files of the groups ranked 6th and below by
total hunk count (stable descending order); every one of the 5 heaviest
groups survives unchanged as the diff references of some step. -/
theorem c2_step_cap (o : BuildHeuristicReviewPlanOptions) (p : ReviewPlan)
    (hgt : 6 < (mergedGroupsOf o.diffIndex).length)
    (hok : buildHeuristicReviewPlan o = .ok p) :
    p.steps.length = 6
    ∧ (∃ last : ReviewStep, p.steps.getLast? = some last
        ∧ last.title = "Review consolidated updates"
        ∧ last.badges = ["Mixed"]
        ∧ last.diff_refs = toDiffRefs
            (((stableSortByCmp weightCmp (mergedGroupsOf o.diffIndex)).drop 5).flatMap
              GroupContext.files))
    ∧ (∀ g ∈ (stableSortByCmp weightCmp (mergedGroupsOf o.diffIndex)).take 5,
        ∃ s ∈ p.steps, s.diff_refs = toDiffRefs g.files) := by
  have hne : (filesWithHunks o.diffIndex).length ≠ 0 := by
    intro h0
    have hempty : filesWithHunks o.diffIndex = [] := List.length_eq_zero.mp h0
    rw [mergedGroupsOf, hempty] at hgt
    simp [mergeGroupContexts] at hgt
  unfold buildHeuristicReviewPlan at hok
  rw [if_neg hne] at hok
  have hp := reviewPlanParse_ok hok
  subst hp
  have hlimit : limitGroupCount (mergedGroupsOf o.diffIndex) =
      (stableSortByCmp weightCmp (mergedGroupsOf o.diffIndex)).take 5 ++
        [⟨"misc", .misc, none,
          ((stableSortByCmp weightCmp (mergedGroupsOf o.diffIndex)).drop 5).flatMap
            GroupContext.files⟩] := by
    unfold limitGroupCount
    rw [if_neg (by omega)]
  have hcatne : ∀ y ∈ (stableSortByCmp weightCmp (mergedGroupsOf o.diffIndex)).take 5,
      y.category ≠ GroupCategory.misc := by
    intro y hy
    exact mergedGroups_category_ne_misc o.diffIndex y
      ((mem_stableSortByCmp _ _ _).mp (List.mem_of_mem_take hy))
  have hsorted : sortedGroupsOf o.diffIndex =
      sortGroups ((stableSortByCmp weightCmp (mergedGroupsOf o.diffIndex)).take 5) ++
        [⟨"misc", .misc, none,
          ((stableSortByCmp weightCmp (mergedGroupsOf o.diffIndex)).drop 5).flatMap
            GroupContext.files⟩] := by
    unfold sortedGroupsOf
    rw [hlimit]
    exact sortGroups_concat_misc _ _ hcatne rfl
  have hlen5 : ((stableSortByCmp weightCmp (mergedGroupsOf o.diffIndex)).take 5).length = 5 := by
    rw [List.length_take]
    have hl := length_stableSortByCmp weightCmp (mergedGroupsOf o.diffIndex)
    omega
  have hlensorted :
      (sortGroups ((stableSortByCmp weightCmp (mergedGroupsOf o.diffIndex)).take 5)).length
        = 5 := by
    unfold sortGroups
    rw [length_stableSortByCmp]
    exact hlen5
  refine ⟨?_, ?_, ?_⟩
  · show (buildSteps (sortedGroupsOf o.diffIndex)).length = 6
    rw [hsorted]
    unfold buildSteps
    rw [buildStepsAux_length, List.length_append, hlensorted]
    rfl
  · show ∃ last : ReviewStep, (buildSteps (sortedGroupsOf o.diffIndex)).getLast? = some last
        ∧ last.title = "Review consolidated updates"
        ∧ last.badges = ["Mixed"]
        ∧ last.diff_refs = toDiffRefs
            (((stableSortByCmp weightCmp (mergedGroupsOf o.diffIndex)).drop 5).flatMap
              GroupContext.files)
    rw [hsorted]
    unfold buildSteps
    rw [buildStepsAux_concat]
    refine ⟨_, List.getLast?_concat _, rfl, rfl, rfl⟩
  · intro g hg
    show ∃ s ∈ buildSteps (sortedGroupsOf o.diffIndex), s.diff_refs = toDiffRefs g.files
    rw [hsorted]
    unfold buildSteps
    rw [buildStepsAux_concat]
    have hgs : g ∈ sortGroups ((stableSortByCmp weightCmp (mergedGroupsOf o.diffIndex)).take 5) := by
      unfold sortGroups
      exact (mem_stableSortByCmp _ _ _).mpr hg
    obtain ⟨s, hs, hrefs⟩ := buildStepsAux_mem_refs _ 0 g hgs
    exact ⟨s, List.mem_append_left _ hs, hrefs⟩

def c2WitnessOptions : BuildHeuristicReviewPlanOptions :=
  ⟨⟨1, ["p0", "p1", "p2", "p3", "p4", "p5", "p6"].map (fun pre =>
    ⟨pre ++ "/a.ts", DiffFileStatus.modified, some "ts",
     [⟨pre ++ "/a.ts#h0", 1, 1, "@@ -1 +1 @@"⟩]⟩)⟩, none, none⟩

def c2WitnessPlan : ReviewPlan :=
  (buildHeuristicReviewPlan c2WitnessOptions).toOption.getD emptyReviewPlan

/-- C2 (witness): seven singleton feature groups collapse to a 6-step plan. -/
theorem c2_step_cap_witness : c2WitnessPlan.steps.length = 6 :=
  (c2_step_cap c2WitnessOptions c2WitnessPlan (by decide) rfl).1

/-! ## C5 — reference integrity of the heuristic plan -/

/-- C5: every diff reference of every step of a successfully produced
heuristic plan points at a file of the input DiffIndex with a non-empty hunk
list, and carries exactly that file's full hunk-id list in order. -/
theorem c5_reference_integrity (o : BuildHeuristicReviewPlanOptions) (p : ReviewPlan)
    (hok : buildHeuristicReviewPlan o = .ok p) :
    ∀ s ∈ p.steps, ∀ r ∈ s.diff_refs,
      ∃ f ∈ o.diffIndex.files, f.hunks ≠ [] ∧ r.file_id = f.file_id ∧
        r.hunk_ids = f.hunks.map DiffHunk.hunk_id := by
  intro s hs r hr
  unfold buildHeuristicReviewPlan at hok
  by_cases hne : (filesWithHunks o.diffIndex).length = 0
  · rw [if_pos hne] at hok
    have hp := reviewPlanParse_ok hok
    subst hp
    simp [emptyReviewPlan] at hs
  · rw [if_neg hne] at hok
    have hp := reviewPlanParse_ok hok
    subst hp
    obtain ⟨g, hg, hrefs⟩ := buildStepsAux_refs_mem (sortedGroupsOf o.diffIndex) 0 s hs
    rw [hrefs] at hr
    unfold toDiffRefs at hr
    obtain ⟨f, hf, hrf⟩ := List.mem_map.mp hr
    have hgl : g ∈ limitGroupCount (mergedGroupsOf o.diffIndex) := by
      unfold sortedGroupsOf sortGroups at hg
      exact (mem_stableSortByCmp _ _ _).mp hg
    obtain ⟨g₀, hg₀, hf₀⟩ := limitGroupCount_files _ g hgl f hf
    unfold mergedGroupsOf mergeGroupContexts at hg₀
    rcases foldl_upsertGroup_files _ [] g₀ hg₀ f hf₀ with ⟨g₁, hg₁, _⟩ | ⟨c, hc, hfc⟩
    · simp at hg₁
    · obtain ⟨f₀, hf₀mem, rfl⟩ := List.mem_map.mp hc
      rw [analyzeFile_files] at hfc
      simp only [List.mem_singleton] at hfc
      subst hfc
      unfold filesWithHunks at hf₀mem
      have hmem := List.mem_filter.mp hf₀mem
      refine ⟨f, hmem.1, ?_, ?_, ?_⟩
      · intro hnil
        have hlen := hmem.2
        rw [hnil] at hlen
        simp at hlen
      · rw [← hrf]
      · rw [← hrf]

def c5WitnessOptions : BuildHeuristicReviewPlanOptions :=
  ⟨⟨1, [⟨"util/fmt.ts", DiffFileStatus.modified, some "ts",
    [⟨"util/fmt.ts#h0", 2, 2, "@@ -2 +2 @@"⟩]⟩]⟩, none, none⟩

def c5WitnessPlan : ReviewPlan :=
  (buildHeuristicReviewPlan c5WitnessOptions).toOption.getD emptyReviewPlan

def c5WitnessStep : ReviewStep :=
  c5WitnessPlan.steps.headD ⟨"s", "s", "s", "s", .low, [], [], []⟩

/-- C5 (witness): the single step's single diff reference resolves to the
input file with its full hunk-id list. -/
theorem c5_reference_integrity_witness :
    ∃ f ∈ c5WitnessOptions.diffIndex.files, f.hunks ≠ [] ∧
      (⟨"util/fmt.ts", ["util/fmt.ts#h0"]⟩ : DiffRef).file_id = f.file_id ∧
      (⟨"util/fmt.ts", ["util/fmt.ts#h0"]⟩ : DiffRef).hunk_ids = f.hunks.map DiffHunk.hunk_id :=
  c5_reference_integrity c5WitnessOptions c5WitnessPlan rfl c5WitnessStep (by decide)
    ⟨"util/fmt.ts", ["util/fmt.ts#h0"]⟩ (by decide)

end PRQuest
